import Mathlib

/-!
Verification of the lima-hn comment pipeline.

This file shallowly embeds the parts of the repository that the claims
concern: the DFS comment-tree builder (`src/api/client.rs`), the
`CommentTree` visibility logic (`src/comment_tree.rs`), the SQLite-backed
story and comment stores (`src/storage/queries.rs`), and the list-widget
centering offset (`src/widgets/comment_list.rs`).

Rust `HashMap`s are embedded as association lists `List (Nat × T)` whose
binding semantics is given by `lookupKey` (first match) and `removeKey`
(drop all pairs with the key); Rust `HashSet`s become `List Nat` used
only through membership.  The external `html_escape::decode_html_entities`
function is threaded through as an arbitrary parameter `decode`, since no
claim depends on its behaviour.
-/

/-- `HnItem` from `src/api/types.rs` (the Firebase item shape).
The Rust fields `type` and `by` are renamed `item_type` and `by_`
because they collide with Lean keywords. -/
structure HnItem where
  id : Nat
  item_type : Option String
  by_ : Option String
  time : Option Nat
  text : Option String
  url : Option String
  score : Option Nat
  title : Option String
  descendants : Option Nat
  kids : List Nat
  parent : Option Nat
  deleted : Option Bool
  dead : Option Bool
  deriving Repr, DecidableEq

/-- `Comment` from `src/api/types.rs`. -/
structure Comment where
  id : Nat
  text : String
  by_ : String
  time : Nat
  depth : Nat
  kids : List Nat
  deriving Repr, DecidableEq

/-- `Comment::from_item` from `src/api/types.rs`: `None` for deleted/dead
items and for items without text; otherwise decodes the text and defaults
the author to `"[deleted]"`.  `decode` stands for
`html_escape::decode_html_entities`. -/
def Comment.from_item (decode : String → String) (item : HnItem) (depth : Nat) :
    Option Comment :=
  if item.deleted.getD false || item.dead.getD false then none
  else
    match item.text with
    | none => none
    | some t =>
        some { id := item.id
               text := decode t
               by_ := item.by_.getD "[deleted]"
               time := item.time.getD 0
               depth := depth
               kids := item.kids }

/-- Binding lookup in the association-list model of a Rust `HashMap`:
the value of the first pair carrying the key. -/
def lookupKey {T : Type} (id : Nat) : List (Nat × T) → Option T
  | [] => none
  | p :: rest => if p.1 = id then some p.2 else lookupKey id rest

/-- Binding removal in the association-list model of a Rust `HashMap`:
drop every pair carrying the key. -/
def removeKey {T : Type} (id : Nat) (items : List (Nat × T)) : List (Nat × T) :=
  items.filter (fun p => ¬ p.1 = id)

theorem lookupKey_nil {T : Type} (id : Nat) : lookupKey (T := T) id [] = none := rfl

theorem lookupKey_cons {T : Type} (id : Nat) (p : Nat × T) (items : List (Nat × T)) :
    lookupKey id (p :: items) = if p.1 = id then some p.2 else lookupKey id items := rfl

theorem removeKey_cons {T : Type} (id : Nat) (p : Nat × T) (items : List (Nat × T)) :
    removeKey id (p :: items) =
      if p.1 = id then removeKey id items else p :: removeKey id items := by
  by_cases h : p.1 = id <;> simp [removeKey, h]

theorem removeKey_length_le {T : Type} (id : Nat) (items : List (Nat × T)) :
    (removeKey id items).length ≤ items.length :=
  List.length_filter_le _ _

theorem removeKey_length_lt {T : Type} (id : Nat) (items : List (Nat × T))
    (h : (lookupKey id items).isSome) :
    (removeKey id items).length < items.length := by
  induction items with
  | nil => simp [lookupKey] at h
  | cons p rest ih =>
      rw [removeKey_cons]
      by_cases hp : p.1 = id
      · simpa [hp] using Nat.lt_succ_of_le (removeKey_length_le id rest)
      · rw [lookupKey_cons] at h
        simp only [hp, if_false] at h
        simpa [hp] using Nat.succ_lt_succ (ih h)

/-- The loop of `build_tree` from `src/api/client.rs`: pop an `(id, depth)`
entry, and when the id is still bound in the map, remove it, push its kids
(in order, so they are popped first-kid-first exactly as the reversed Rust
push does) at `depth + 1`, and emit the converted comment when the
conversion succeeds. -/
def build_tree_go {T : Type} (get_kids : T → List Nat)
    (to_comment : T → Nat → Option Comment) :
    List (Nat × T) → List (Nat × Nat) → List Comment
  | _, [] => []
  | items, (id, depth) :: rest =>
      match h : lookupKey id items with
      | none => build_tree_go get_kids to_comment items rest
      | some item =>
          let stack' := ((get_kids item).map (fun k => (k, depth + 1))) ++ rest
          match to_comment item depth with
          | none => build_tree_go get_kids to_comment (removeKey id items) stack'
          | some c => c :: build_tree_go get_kids to_comment (removeKey id items) stack'
  termination_by items stack => (items.length, stack.length)
  decreasing_by
  all_goals first
    | exact Prod.Lex.right _ (Nat.lt_succ_self _)
    | exact Prod.Lex.left _ _ (removeKey_length_lt id items (by rw [h]; rfl))

/-- `build_tree` from `src/api/client.rs`: the shared DFS builder.  The
initial stack holds the root kids at depth 0, first root kid on top. -/
def build_tree {T : Type} (items : List (Nat × T)) (root_kids : List Nat)
    (get_kids : T → List Nat) (to_comment : T → Nat → Option Comment) :
    List Comment :=
  build_tree_go get_kids to_comment items (root_kids.map (fun id => (id, 0)))

/-- The kids retention of the pre-filter in `build_comment_tree`
(`src/api/client.rs`): keep a kid iff it was never attempted or is a
present key. -/
def filterKids (attempted present : List Nat) (item : HnItem) : HnItem :=
  { item with kids := item.kids.filter (fun kid =>
      !(attempted.contains kid) || present.contains kid) }

/-- The pre-filter step of `build_comment_tree` from `src/api/client.rs`:
in every item's `kids`, retain ids that were never attempted or are
present as map keys. -/
def prefilter_items (items : List (Nat × HnItem)) (attempted : List Nat) :
    List (Nat × HnItem) :=
  let present := items.map (fun p => p.1)
  items.map (fun p => (p.1, filterKids attempted present p.2))

/-- `build_comment_tree` from `src/api/client.rs`: pre-filter the kids
lists, then run the DFS builder with `Comment::from_item`. -/
def build_comment_tree (decode : String → String) (items : List (Nat × HnItem))
    (attempted : List Nat) (root_kids : List Nat) : List Comment :=
  build_tree (prefilter_items items attempted) root_kids
    (fun item => item.kids) (Comment.from_item decode)

/-- `order_cached_comments` from `src/api/client.rs`: key the cached
comments by id and replay the DFS using the stored `kids` arrays; the
cached comment is emitted unchanged (its stored depth is kept). -/
def order_cached_comments (cached : List Comment) (root_kids : List Nat) :
    List Comment :=
  let by_id := cached.map (fun c => (c.id, c))
  build_tree by_id root_kids (fun c => c.kids) (fun c _depth => some c)

/-- `find_parent_id` from `src/api/client.rs`. -/
def find_parent_id (comments : List Comment) (comment_id : Nat) : Option Nat :=
  (comments.find? (fun c => c.kids.contains comment_id)).map (fun c => c.id)

/-- `StorableComment` from `src/storage/types.rs`. -/
structure StorableComment where
  id : Nat
  story_id : Nat
  parent_id : Option Nat
  text : String
  by_ : String
  time : Nat
  depth : Nat
  kids : List Nat
  fetched_at : Nat
  favorited_at : Option Nat
  deriving Repr, DecidableEq

/-- `StorableComment::from_comment` from `src/storage/types.rs`; the
`fetched_at` timestamp (`now_unix()`) is passed in as `now`.  A freshly
fetched comment has no favorite yet, matching the `favorited_at` column
the save path leaves to `COALESCE`. -/
def StorableComment.from_comment (comment : Comment) (story_id : Nat)
    (parent_id : Option Nat) (now : Nat) : StorableComment :=
  { id := comment.id
    story_id := story_id
    parent_id := parent_id
    text := comment.text
    by_ := comment.by_
    time := comment.time
    depth := comment.depth
    kids := comment.kids
    fetched_at := now
    favorited_at := none }

/-- `impl From<StorableComment> for Comment` from `src/storage/types.rs`. -/
def StorableComment.toComment (stored : StorableComment) : Comment :=
  { id := stored.id
    text := stored.text
    by_ := stored.by_
    time := stored.time
    depth := stored.depth
    kids := stored.kids }

theorem storable_round_trip (c : Comment) (story_id : Nat) (parent_id : Option Nat)
    (now : Nat) :
    (StorableComment.from_comment c story_id parent_id now).toComment = c := rfl

theorem prefilter_items_length (items : List (Nat × HnItem)) (attempted : List Nat) :
    (prefilter_items items attempted).length = items.length := by
  simp [prefilter_items]

/-- C1: the pre-filter of `build_comment_tree` keeps an id in a parent's
`kids` list iff the id was never attempted or is a key of the items map;
consequently every attempted-but-absent id is gone from all kids lists
before the DFS walk runs. -/
theorem prefilter_retains_iff (items : List (Nat × HnItem)) (attempted : List Nat)
    (i : Nat) (hi : i < items.length) (k : Nat) :
    (k ∈ ((prefilter_items items attempted).get
        ⟨i, by rw [prefilter_items_length]; exact hi⟩).2.kids ↔
      k ∈ (items.get ⟨i, hi⟩).2.kids ∧
        (k ∉ attempted ∨ k ∈ items.map (fun p => p.1)))
    ∧ (∀ p ∈ prefilter_items items attempted, ∀ kid ∈ p.2.kids,
        kid ∈ attempted → kid ∈ items.map (fun p => p.1)) := by
  constructor
  · simp only [prefilter_items, List.get_map]
    simp [filterKids, List.mem_filter]
  · intro p hp kid hkid hatt
    simp only [prefilter_items, List.mem_map] at hp
    obtain ⟨q, hq, rfl⟩ := hp
    simp only [filterKids, List.mem_filter] at hkid
    rcases hkid with ⟨-, hcond⟩
    simp only [Bool.or_eq_true, Bool.not_eq_true'] at hcond
    rcases hcond with hnot | hpres
    · simp at hnot
      exact absurd hatt hnot
    · simpa using hpres

/-- A plain comment item used by concrete examples. -/
def mkItem (id : Nat) (kids : List Nat) : HnItem :=
  { id := id
    item_type := some "comment"
    by_ := some "u"
    time := some 1
    text := some "t"
    url := none
    score := none
    title := none
    descendants := none
    kids := kids
    parent := none
    deleted := none
    dead := none }

def c1ex_items : List (Nat × HnItem) := [(1, mkItem 1 [2, 3, 4]), (2, mkItem 2 [])]

def c1ex_attempted : List Nat := [1, 2, 3]

theorem c1ex_lt : 0 < (prefilter_items c1ex_items c1ex_attempted).length := by decide

/-- Witness for C1 at a concrete input: item 1 has kids `[2, 3, 4]`,
id 2 was attempted and fetched, id 3 was attempted and is absent
(deleted), id 4 was never attempted; the filter keeps 2 and 4, drops 3. -/
theorem prefilter_retains_iff_witness :
    (0 : Nat) < 2 ∧
      ((2 : Nat) ∈ ((prefilter_items c1ex_items c1ex_attempted).get ⟨0, c1ex_lt⟩).2.kids ↔
        (2 : Nat) ∈ (c1ex_items.get ⟨0, by decide⟩).2.kids ∧
          ((2 : Nat) ∉ c1ex_attempted ∨ (2 : Nat) ∈ c1ex_items.map (fun p => p.1))) := by
  constructor
  · decide
  · exact (prefilter_retains_iff c1ex_items c1ex_attempted 0 (by decide) 2).1

theorem build_tree_go_nil {T : Type} (gk : T → List Nat) (tc : T → Nat → Option Comment)
    (items : List (Nat × T)) : build_tree_go gk tc items [] = [] := by
  rw [build_tree_go]

theorem build_tree_go_cons_none {T : Type} (gk : T → List Nat) (tc : T → Nat → Option Comment)
    {items : List (Nat × T)} {id : Nat} (depth : Nat) (rest : List (Nat × Nat))
    (hl : lookupKey id items = none) :
    build_tree_go gk tc items ((id, depth) :: rest) = build_tree_go gk tc items rest := by
  rw [build_tree_go]
  split
  · rfl
  · rename_i item heq
    rw [hl] at heq
    cases heq

theorem build_tree_go_cons_some {T : Type} (gk : T → List Nat) (tc : T → Nat → Option Comment)
    {items : List (Nat × T)} {id : Nat} (depth : Nat) (rest : List (Nat × Nat))
    {item : T} (hl : lookupKey id items = some item) :
    build_tree_go gk tc items ((id, depth) :: rest) =
      match tc item depth with
      | none => build_tree_go gk tc (removeKey id items)
          (((gk item).map (fun k => (k, depth + 1))) ++ rest)
      | some c => c :: build_tree_go gk tc (removeKey id items)
          (((gk item).map (fun k => (k, depth + 1))) ++ rest) := by
  rw [build_tree_go]
  split
  · rename_i heq
    rw [hl] at heq
    cases heq
  · rename_i it heq
    rw [hl] at heq
    injection heq with h2
    subst h2
    rfl

theorem lookupKey_removeKey_self {T : Type} (id : Nat) (items : List (Nat × T)) :
    lookupKey id (removeKey id items) = none := by
  induction items with
  | nil => rfl
  | cons p rest ih =>
      rw [removeKey_cons]
      by_cases hp : p.1 = id <;> simp [hp, lookupKey_cons, ih]

theorem lookupKey_removeKey_ne {T : Type} {k id : Nat} (hne : ¬ k = id)
    (items : List (Nat × T)) :
    lookupKey k (removeKey id items) = lookupKey k items := by
  induction items with
  | nil => rfl
  | cons p rest ih =>
      rw [removeKey_cons]
      have hik : ¬ id = k := fun h => hne h.symm
      have hki : ¬ k = id := hne
      by_cases hp : p.1 = id
      · have hpk : ¬ p.1 = k := fun h => hne (h ▸ hp)
        simp [hp, lookupKey_cons, hpk, hik, ih]
      · by_cases hk : p.1 = k <;> simp [hp, hk, lookupKey_cons, hki, hik, ih]

/-- Total kids length over the map's values, the push budget of the DFS. -/
def sumKids {T : Type} (get_kids : T → List Nat) (items : List (Nat × T)) : Nat :=
  (items.map (fun p => (get_kids p.2).length)).sum

theorem sumKids_removeKey_le {T : Type} (get_kids : T → List Nat) (id : Nat)
    (items : List (Nat × T)) :
    sumKids get_kids (removeKey id items) ≤ sumKids get_kids items := by
  induction items with
  | nil => exact Nat.le_refl _
  | cons p rest ih =>
      rw [removeKey_cons]
      by_cases hp : p.1 = id
      · simp only [hp, if_true]
        exact Nat.le_trans ih (by simp [sumKids])
      · simp only [hp, if_false, sumKids, List.map_cons, List.sum_cons]
        exact Nat.add_le_add_left ih _

theorem sumKids_removeKey_found {T : Type} (get_kids : T → List Nat) {id : Nat}
    {items : List (Nat × T)} {item : T} (hl : lookupKey id items = some item) :
    (get_kids item).length + sumKids get_kids (removeKey id items) ≤
      sumKids get_kids items := by
  induction items with
  | nil => cases hl
  | cons p rest ih =>
      rw [removeKey_cons]
      rw [lookupKey_cons] at hl
      by_cases hp : p.1 = id
      · simp only [hp, if_true] at hl ⊢
        injection hl with h2
        subst h2
        simp only [sumKids, List.map_cons, List.sum_cons]
        exact Nat.add_le_add_left (sumKids_removeKey_le get_kids id rest) _
      · simp only [hp, if_false] at hl ⊢
        simp only [sumKids, List.map_cons, List.sum_cons]
        rw [Nat.add_left_comm]
        exact Nat.add_le_add_left (ih hl) _

/-- The DFS loop of `build_tree` with an explicit step budget: `none`
means the budget ran out before the stack emptied. -/
def build_tree_fuel {T : Type} (get_kids : T → List Nat)
    (to_comment : T → Nat → Option Comment) :
    Nat → List (Nat × T) → List (Nat × Nat) → Option (List Comment)
  | _, _, [] => some []
  | 0, _, _ :: _ => none
  | fuel + 1, items, (id, depth) :: rest =>
      match lookupKey id items with
      | none => build_tree_fuel get_kids to_comment fuel items rest
      | some item =>
          let stack' := ((get_kids item).map (fun k => (k, depth + 1))) ++ rest
          match to_comment item depth with
          | none => build_tree_fuel get_kids to_comment fuel (removeKey id items) stack'
          | some c =>
              (build_tree_fuel get_kids to_comment fuel (removeKey id items) stack').map
                (fun cs => c :: cs)

theorem build_tree_fuel_complete {T : Type} (gk : T → List Nat)
    (tc : T → Nat → Option Comment) (items : List (Nat × T))
    (stack : List (Nat × Nat)) :
    ∀ fuel, stack.length + sumKids gk items ≤ fuel →
      build_tree_fuel gk tc fuel items stack = some (build_tree_go gk tc items stack) := by
  induction items, stack using build_tree_go.induct gk tc with
  | case1 items =>
      intro fuel _
      cases fuel <;> simp [build_tree_fuel, build_tree_go_nil]
  | case2 items id depth rest hl ih =>
      intro fuel hfuel
      cases fuel with
      | zero => simp at hfuel
      | succ f =>
          simp only [build_tree_fuel, hl]
          rw [build_tree_go_cons_none _ _ _ _ hl]
          exact ih f (by simp at hfuel; omega)
  | case3 items id depth rest item hl stack1 hnone ih =>
      intro fuel hfuel
      cases fuel with
      | zero => simp at hfuel
      | succ f =>
          simp only [build_tree_fuel, hl, hnone]
          rw [build_tree_go_cons_some _ _ _ _ hl, hnone]
          refine ih f ?_
          have hs : stack1 = ((gk item).map (fun k => (k, depth + 1))) ++ rest := rfl
          have hbound := sumKids_removeKey_found gk hl
          rw [hs]
          simp only [List.length_append, List.length_map, List.length_cons] at *
          omega
  | case4 items id depth rest item hl stack1 c hsome ih =>
      intro fuel hfuel
      cases fuel with
      | zero => simp at hfuel
      | succ f =>
          simp only [build_tree_fuel, hl, hsome]
          rw [build_tree_go_cons_some _ _ _ _ hl, hsome]
          rw [ih f ?_]
          · rfl
          · have hs : stack1 = ((gk item).map (fun k => (k, depth + 1))) ++ rest := rfl
            have hbound := sumKids_removeKey_found gk hl
            rw [hs]
            simp only [List.length_append, List.length_map, List.length_cons] at *
            omega

theorem build_tree_go_traversal {T : Type} (gk : T → List Nat)
    (tc : T → Nat → Option Comment) (items : List (Nat × T))
    (stack : List (Nat × Nat)) :
    ∃ tr : List (Nat × T × Nat),
      (tr.map (fun e => e.1)).Nodup ∧
      (∀ e ∈ tr, lookupKey e.1 items = some e.2.1) ∧
      build_tree_go gk tc items stack = tr.filterMap (fun e => tc e.2.1 e.2.2) := by
  induction items, stack using build_tree_go.induct gk tc with
  | case1 items => exact ⟨[], by simp, by simp, by simp [build_tree_go_nil]⟩
  | case2 items id depth rest hl ih =>
      obtain ⟨tr, hnd, hmem, heq⟩ := ih
      exact ⟨tr, hnd, hmem, by rw [build_tree_go_cons_none _ _ _ _ hl]; exact heq⟩
  | case3 items id depth rest item hl stack1 hnone ih =>
      obtain ⟨tr, hnd, hmem, heq⟩ := ih
      refine ⟨(id, item, depth) :: tr, ?_, ?_, ?_⟩
      · simp only [List.map_cons, List.nodup_cons]
        refine ⟨fun hmem' => ?_, hnd⟩
        obtain ⟨e, he, he1⟩ := List.mem_map.mp hmem'
        have := hmem e he
        rw [he1, lookupKey_removeKey_self] at this
        cases this
      · intro e he
        rcases List.mem_cons.mp he with rfl | he'
        · exact hl
        · have hne : ¬ e.1 = id := by
            intro habs
            have := hmem e he'
            rw [habs, lookupKey_removeKey_self] at this
            cases this
          rw [← lookupKey_removeKey_ne hne items]
          exact hmem e he'
      · rw [build_tree_go_cons_some _ _ _ _ hl, hnone]
        simp only [List.filterMap_cons, hnone]
        exact heq
  | case4 items id depth rest item hl stack1 c hsome ih =>
      obtain ⟨tr, hnd, hmem, heq⟩ := ih
      refine ⟨(id, item, depth) :: tr, ?_, ?_, ?_⟩
      · simp only [List.map_cons, List.nodup_cons]
        refine ⟨fun hmem' => ?_, hnd⟩
        obtain ⟨e, he, he1⟩ := List.mem_map.mp hmem'
        have := hmem e he
        rw [he1, lookupKey_removeKey_self] at this
        cases this
      · intro e he
        rcases List.mem_cons.mp he with rfl | he'
        · exact hl
        · have hne : ¬ e.1 = id := by
            intro habs
            have := hmem e he'
            rw [habs, lookupKey_removeKey_self] at this
            cases this
          rw [← lookupKey_removeKey_ne hne items]
          exact hmem e he'
      · rw [build_tree_go_cons_some _ _ _ _ hl, hsome]
        simp only [List.filterMap_cons, hsome]
        rw [heq]

/-- C10: for every items map, root kids, kids accessor and conversion —
including duplicate ids, absent ids and cyclic kid references — the shared
builder `build_tree` terminates within an explicit step budget (the root
stack plus the total kids length of the map), and its whole output is the
image of a traversal that visits each map key at most once, so no key
contributes two comments. -/
theorem build_tree_terminates_each_key_once {T : Type} (get_kids : T → List Nat)
    (to_comment : T → Nat → Option Comment) (items : List (Nat × T))
    (root_kids : List Nat) :
    build_tree_fuel get_kids to_comment (root_kids.length + sumKids get_kids items)
        items (root_kids.map (fun id => (id, 0))) =
      some (build_tree items root_kids get_kids to_comment) ∧
    ∃ tr : List (Nat × T × Nat),
      (tr.map (fun e => e.1)).Nodup ∧
      (∀ e ∈ tr, lookupKey e.1 items = some e.2.1) ∧
      build_tree items root_kids get_kids to_comment =
        tr.filterMap (fun e => to_comment e.2.1 e.2.2) := by
  constructor
  · exact build_tree_fuel_complete get_kids to_comment items _ _ (by simp)
  · exact build_tree_go_traversal get_kids to_comment items _

theorem build_tree_go_all_none {T : Type} (gk : T → List Nat)
    (tc : T → Nat → Option Comment) (items : List (Nat × T))
    (hnone : ∀ k, lookupKey k items = none) :
    ∀ stack, build_tree_go gk tc items stack = [] := by
  intro stack
  induction stack with
  | nil => exact build_tree_go_nil gk tc items
  | cons e rest ih =>
      obtain ⟨id, depth⟩ := e
      rw [build_tree_go_cons_none _ _ _ _ (hnone id)]
      exact ih

theorem build_tree_go_bindings_congr {T : Type} (gk : T → List Nat)
    (tc : T → Nat → Option Comment) :
    ∀ (n : Nat) (items₁ items₂ : List (Nat × T)) (stack : List (Nat × Nat)),
      items₁.length ≤ n →
      (∀ k, lookupKey k items₁ = lookupKey k items₂) →
      build_tree_go gk tc items₁ stack = build_tree_go gk tc items₂ stack := by
  intro n
  induction n with
  | zero =>
      intro items₁ items₂ stack hlen hsame
      have h1 : items₁ = [] := List.length_eq_zero.mp (Nat.le_zero.mp hlen)
      subst h1
      have h2 : ∀ k, lookupKey k items₂ = none := fun k => (hsame k).symm
      rw [build_tree_go_all_none gk tc [] (fun k => rfl) stack,
        build_tree_go_all_none gk tc items₂ h2 stack]
  | succ n ih =>
      intro items₁ items₂ stack hlen hsame
      induction stack with
      | nil => rw [build_tree_go_nil, build_tree_go_nil]
      | cons e rest ihs =>
          obtain ⟨id, depth⟩ := e
          cases hl : lookupKey id items₁ with
          | none =>
              have hl₂ : lookupKey id items₂ = none := (hsame id).symm.trans hl
              rw [build_tree_go_cons_none _ _ _ _ hl, build_tree_go_cons_none _ _ _ _ hl₂]
              exact ihs
          | some item =>
              have hl₂ : lookupKey id items₂ = some item := (hsame id).symm.trans hl
              rw [build_tree_go_cons_some _ _ _ _ hl, build_tree_go_cons_some _ _ _ _ hl₂]
              have hlen' : (removeKey id items₁).length ≤ n :=
                Nat.lt_succ_iff.mp
                  (Nat.lt_of_lt_of_le (removeKey_length_lt id items₁ (by rw [hl]; rfl)) hlen)
              have hsame' : ∀ k, lookupKey k (removeKey id items₁) =
                  lookupKey k (removeKey id items₂) := by
                intro k
                by_cases hk : k = id
                · subst hk
                  rw [lookupKey_removeKey_self, lookupKey_removeKey_self]
                · rw [lookupKey_removeKey_ne hk, lookupKey_removeKey_ne hk]
                  exact hsame k
              cases tc item depth with
              | none => exact ih _ _ _ hlen' hsame'
              | some c => rw [ih _ _ _ hlen' hsame']

theorem lookupKey_map_value {T U : Type} (f : T → U) (k : Nat) (items : List (Nat × T)) :
    lookupKey k (items.map (fun p => (p.1, f p.2))) = (lookupKey k items).map f := by
  induction items with
  | nil => rfl
  | cons p rest ih =>
      simp only [List.map_cons, lookupKey_cons]
      by_cases hp : p.1 = k <;> simp [hp, ih]

theorem lookupKey_isSome_iff_mem_keys {T : Type} (k : Nat) (items : List (Nat × T)) :
    (lookupKey k items).isSome = true ↔ k ∈ items.map (fun p => p.1) := by
  induction items with
  | nil => simp [lookupKey]
  | cons p rest ih =>
      rw [lookupKey_cons, List.map_cons, List.mem_cons]
      by_cases hp : p.1 = k
      · simp [hp]
      · simp only [hp, if_false]
        rw [ih]
        constructor
        · exact Or.inr
        · rintro (h | h)
          · exact absurd h.symm hp
          · exact h

theorem prefilter_items_eq (items : List (Nat × HnItem)) (attempted : List Nat) :
    prefilter_items items attempted = items.map (fun p =>
      (p.1, filterKids attempted (items.map (fun q => q.1)) p.2)) := rfl

theorem prefilter_items_bindings_congr {items₁ items₂ : List (Nat × HnItem)}
    (attempted : List Nat)
    (hsame : ∀ k, lookupKey k items₁ = lookupKey k items₂) :
    ∀ k, lookupKey k (prefilter_items items₁ attempted) =
      lookupKey k (prefilter_items items₂ attempted) := by
  have hmem : ∀ x, x ∈ items₁.map (fun p => p.1) ↔ x ∈ items₂.map (fun p => p.1) := by
    intro x
    rw [← lookupKey_isSome_iff_mem_keys, ← lookupKey_isSome_iff_mem_keys, hsame x]
  have hkeys : ∀ x, (items₁.map (fun q => q.1)).contains x =
      (items₂.map (fun q => q.1)).contains x := by
    intro x
    by_cases hx : x ∈ items₂.map (fun p => p.1)
    · have hx1 : x ∈ items₁.map (fun p => p.1) := (hmem x).mpr hx
      have e1 : (items₁.map (fun q => q.1)).contains x = true := by simpa using hx1
      have e2 : (items₂.map (fun q => q.1)).contains x = true := by simpa using hx
      rw [e1, e2]
    · have hx1 : x ∉ items₁.map (fun p => p.1) := fun m => hx ((hmem x).mp m)
      have e1 : (items₁.map (fun q => q.1)).contains x = false := by simpa using hx1
      have e2 : (items₂.map (fun q => q.1)).contains x = false := by simpa using hx
      rw [e1, e2]
  intro k
  rw [prefilter_items_eq, prefilter_items_eq, lookupKey_map_value, lookupKey_map_value,
    hsame k]
  cases lookupKey k items₂ with
  | none => rfl
  | some it =>
      have : filterKids attempted (items₁.map (fun q => q.1)) it =
          filterKids attempted (items₂.map (fun q => q.1)) it := by
        unfold filterKids
        have : it.kids.filter (fun kid =>
              !(attempted.contains kid) || (items₁.map (fun q => q.1)).contains kid) =
            it.kids.filter (fun kid =>
              !(attempted.contains kid) || (items₂.map (fun q => q.1)).contains kid) :=
          List.filter_congr (fun kid _ => by rw [hkeys kid])
        rw [this]
      simp [this]

/-- C8: the output of `build_comment_tree` depends only on the key-value
bindings of the items map (the functional embedding makes per-run
determinism definitional): two maps with equal bindings, however ordered,
produce identical comment sequences. -/
theorem build_comment_tree_bindings_deterministic (decode : String → String)
    (items₁ items₂ : List (Nat × HnItem)) (attempted root_kids : List Nat)
    (hsame : ∀ k, lookupKey k items₁ = lookupKey k items₂) :
    build_comment_tree decode items₁ attempted root_kids =
      build_comment_tree decode items₂ attempted root_kids := by
  unfold build_comment_tree build_tree
  exact build_tree_go_bindings_congr _ _ (prefilter_items items₁ attempted).length _ _ _
    (Nat.le_refl _) (prefilter_items_bindings_congr attempted hsame)

/-- Witness for C8: the same two bindings listed in the two possible
orders yield the same tree. -/
theorem build_comment_tree_bindings_deterministic_witness :
    build_comment_tree (fun s => s) [(1, mkItem 1 [2]), (2, mkItem 2 [])] [1, 2] [1] =
      build_comment_tree (fun s => s) [(2, mkItem 2 []), (1, mkItem 1 [2])] [1, 2] [1] := by
  refine build_comment_tree_bindings_deterministic (fun s => s) _ _ [1, 2] [1] ?_
  intro k
  by_cases h1 : (1 : Nat) = k <;> by_cases h2 : (2 : Nat) = k <;>
    simp [lookupKey_cons, h1, h2] <;> omega

theorem lookupKey_some_mem {T : Type} {k : Nat} {items : List (Nat × T)} {v : T}
    (h : lookupKey k items = some v) : (k, v) ∈ items := by
  induction items with
  | nil => cases h
  | cons p rest ih =>
      obtain ⟨a, b⟩ := p
      rw [lookupKey_cons] at h
      by_cases hp : a = k
      · simp only at h
        rw [if_pos hp] at h
        injection h with h2
        subst hp
        subst h2
        exact List.mem_cons_self _ _
      · simp only at h
        rw [if_neg hp] at h
        exact List.mem_cons_of_mem _ (ih h)

theorem from_item_some_fields (decode : String → String) {it : HnItem} {d : Nat}
    {c : Comment} (h : Comment.from_item decode it d = some c) :
    c.id = it.id ∧ c.kids = it.kids ∧ c.depth = d := by
  unfold Comment.from_item at h
  by_cases hd : (it.deleted.getD false || it.dead.getD false) = true
  · rw [if_pos hd] at h
    cases h
  · rw [if_neg hd] at h
    cases ht : it.text with
    | none => rw [ht] at h; cases h
    | some t =>
        rw [ht] at h
        injection h with h2
        subst h2
        exact ⟨rfl, rfl, rfl⟩

theorem from_item_some_of_live (decode : String → String) (it : HnItem) (d : Nat)
    (hdel : (it.deleted.getD false || it.dead.getD false) = false)
    (htext : it.text.isSome = true) :
    ∃ c, Comment.from_item decode it d = some c := by
  unfold Comment.from_item
  rw [if_neg (by simp [hdel])]
  obtain ⟨t, ht⟩ := Option.isSome_iff_exists.mp htext
  rw [ht]
  exact ⟨_, rfl⟩

theorem emitted_id_mem_keys (decode : String → String)
    (items : List (Nat × HnItem)) (stack : List (Nat × Nat))
    (hid : ∀ p ∈ items, p.2.id = p.1) :
    ∀ c ∈ build_tree_go (fun it => it.kids) (Comment.from_item decode) items stack,
      c.id ∈ items.map (fun p => p.1) := by
  obtain ⟨tr, hnd, hmem, heq⟩ :=
    build_tree_go_traversal (fun it => it.kids) (Comment.from_item decode) items stack
  intro c hc
  rw [heq] at hc
  obtain ⟨e, he, hce⟩ := List.mem_filterMap.mp hc
  have hkey : (e.1, e.2.1) ∈ items := lookupKey_some_mem (hmem e he)
  have hid' : e.2.1.id = e.1 := hid _ hkey
  rw [(from_item_some_fields decode hce).1, hid']
  exact List.mem_map.mpr ⟨(e.1, e.2.1), hkey, rfl⟩

theorem filterMap_ids_sublist {A : Type} (tr : List A) (f : A → Option Comment)
    (key : A → Nat) (hids : ∀ e ∈ tr, ∀ c, f e = some c → c.id = key e) :
    ((tr.filterMap f).map (fun c => c.id)).Sublist (tr.map key) := by
  induction tr with
  | nil => simp
  | cons e rest ih =>
      simp only [List.filterMap_cons, List.map_cons]
      cases hc : f e with
      | none =>
          exact (ih (fun e' he' => hids e' (List.mem_cons_of_mem _ he'))).cons _
      | some c =>
          simp only [List.map_cons]
          rw [hids e (List.mem_cons_self _ _) c hc]
          exact (ih (fun e' he' => hids e' (List.mem_cons_of_mem _ he'))).cons₂ _

theorem emitted_ids_nodup (decode : String → String)
    (items : List (Nat × HnItem)) (stack : List (Nat × Nat))
    (hid : ∀ p ∈ items, p.2.id = p.1) :
    ((build_tree_go (fun it => it.kids) (Comment.from_item decode) items stack).map
      (fun c => c.id)).Nodup := by
  obtain ⟨tr, hnd, hmem, heq⟩ :=
    build_tree_go_traversal (fun it => it.kids) (Comment.from_item decode) items stack
  rw [heq]
  refine List.Sublist.nodup ?_ hnd
  refine filterMap_ids_sublist tr _ _ ?_
  intro e he c hc
  have hkey : (e.1, e.2.1) ∈ items := lookupKey_some_mem (hmem e he)
  rw [(from_item_some_fields decode hc).1, hid _ hkey]

theorem lookupKey_keyed_eq_none {l : List Comment} {k : Nat}
    (h : k ∉ l.map (fun c => c.id)) :
    lookupKey k (l.map (fun c => (c.id, c))) = none := by
  induction l with
  | nil => rfl
  | cons a rest ih =>
      simp only [List.map_cons, List.mem_cons] at h ⊢
      rw [lookupKey_cons]
      rw [if_neg (fun hh => h (Or.inl hh.symm))]
      exact ih (fun m => h (Or.inr m))

theorem lookupKey_keyed_eq_some_iff {l : List Comment}
    (hnd : (l.map (fun c => c.id)).Nodup) (k : Nat) (c : Comment) :
    lookupKey k (l.map (fun c => (c.id, c))) = some c ↔ c ∈ l ∧ c.id = k := by
  induction l with
  | nil => simp [lookupKey]
  | cons a rest ih =>
      simp only [List.map_cons, List.nodup_cons] at hnd
      obtain ⟨hna, hndr⟩ := hnd
      simp only [List.map_cons]
      rw [lookupKey_cons]
      by_cases hak : a.id = k
      · simp only [if_pos hak]
        constructor
        · intro h
          injection h with h2
          subst h2
          exact ⟨List.mem_cons_self _ _, hak⟩
        · rintro ⟨hc, hck⟩
          rcases List.mem_cons.mp hc with rfl | hcr
          · rfl
          · exact absurd (by rw [hak]; exact List.mem_map.mpr ⟨c, hcr, hck⟩) hna
      · simp only [if_neg hak]
        rw [ih hndr]
        constructor
        · rintro ⟨hcr, hck⟩
          exact ⟨List.mem_cons_of_mem _ hcr, hck⟩
        · rintro ⟨hc, hck⟩
          rcases List.mem_cons.mp hc with rfl | hcr
          · exact absurd hck hak
          · exact ⟨hcr, hck⟩

theorem lookupKey_keyed_perm {l₁ l₂ : List Comment} (hperm : l₁.Perm l₂)
    (hnd : (l₂.map (fun c => c.id)).Nodup) (k : Nat) :
    lookupKey k (l₁.map (fun c => (c.id, c))) =
      lookupKey k (l₂.map (fun c => (c.id, c))) := by
  have hnd₁ : (l₁.map (fun c => c.id)).Nodup := ((hperm.map _).nodup_iff).mpr hnd
  cases h2 : lookupKey k (l₂.map (fun c => (c.id, c))) with
  | none =>
      cases h1 : lookupKey k (l₁.map (fun c => (c.id, c))) with
      | none => rfl
      | some c =>
          have hm := (lookupKey_keyed_eq_some_iff hnd₁ k c).mp h1
          have h2' := (lookupKey_keyed_eq_some_iff hnd k c).mpr
            ⟨hperm.mem_iff.mp hm.1, hm.2⟩
          rw [h2'] at h2
          cases h2
  | some c =>
      have hm := (lookupKey_keyed_eq_some_iff hnd k c).mp h2
      exact (lookupKey_keyed_eq_some_iff hnd₁ k c).mpr ⟨hperm.mem_iff.mpr hm.1, hm.2⟩

theorem keys_removeKey_self {T : Type} (id : Nat) (items : List (Nat × T)) :
    id ∉ (removeKey id items).map (fun p => p.1) := by
  intro hmem
  have := (lookupKey_isSome_iff_mem_keys id (removeKey id items)).mpr hmem
  rw [lookupKey_removeKey_self] at this
  cases this

theorem cached_replay (decode : String → String) :
    ∀ (items : List (Nat × HnItem)) (stack : List (Nat × Nat)),
      (∀ p ∈ items, p.2.id = p.1) →
      (∀ p ∈ items, (p.2.deleted.getD false || p.2.dead.getD false) = false ∧
        p.2.text.isSome = true) →
      ∀ B : List (Nat × Comment),
        (∀ k, lookupKey k B = lookupKey k
          ((build_tree_go (fun it => it.kids) (Comment.from_item decode) items stack).map
            (fun c => (c.id, c)))) →
        build_tree_go (fun c => c.kids) (fun c _depth => some c) B stack =
          build_tree_go (fun it => it.kids) (Comment.from_item decode) items stack := by
  intro items stack
  induction items, stack using build_tree_go.induct (fun it => it.kids)
      (Comment.from_item decode) with
  | case1 items =>
      intro _ _ B _
      rw [build_tree_go_nil, build_tree_go_nil]
  | case2 items id depth rest hl ih =>
      intro hid hlive B hB
      have hErw : build_tree_go (fun it => it.kids) (Comment.from_item decode) items
          ((id, depth) :: rest) =
          build_tree_go (fun it => it.kids) (Comment.from_item decode) items rest :=
        build_tree_go_cons_none _ _ _ _ hl
      have hnotid : id ∉ (build_tree_go (fun it => it.kids) (Comment.from_item decode)
          items ((id, depth) :: rest)).map (fun c => c.id) := by
        intro hmemid
        obtain ⟨c, hc, hcid⟩ := List.mem_map.mp hmemid
        have := emitted_id_mem_keys decode items _ hid c hc
        rw [hcid] at this
        have := (lookupKey_isSome_iff_mem_keys id items).mpr this
        rw [hl] at this
        cases this
      have hBnone : lookupKey id B = none := by
        rw [hB id]
        exact lookupKey_keyed_eq_none hnotid
      rw [build_tree_go_cons_none _ _ _ _ hBnone, hErw]
      refine ih hid hlive B ?_
      intro k
      rw [hB k, hErw]
  | case3 items id depth rest item hl stack1 hnone ih =>
      intro hid hlive B hB
      exfalso
      have hmem_it : (id, item) ∈ items := lookupKey_some_mem hl
      obtain ⟨hdel, htext⟩ := hlive _ hmem_it
      obtain ⟨c, hc⟩ := from_item_some_of_live decode item depth hdel htext
      rw [hnone] at hc
      cases hc
  | case4 items id depth rest item hl stack1 c hsome ih =>
      intro hid hlive B hB
      have hmem_it : (id, item) ∈ items := lookupKey_some_mem hl
      have hitem_id : item.id = id := hid _ hmem_it
      obtain ⟨hcid, hckids, hcdepth⟩ := from_item_some_fields decode hsome
      have hcidid : c.id = id := hcid.trans hitem_id
      have hstack1 : stack1 = ((item.kids).map (fun k => (k, depth + 1))) ++ rest := rfl
      have hErw : build_tree_go (fun it => it.kids) (Comment.from_item decode) items
          ((id, depth) :: rest) =
          c :: build_tree_go (fun it => it.kids) (Comment.from_item decode)
            (removeKey id items) stack1 := by
        rw [build_tree_go_cons_some _ _ _ _ hl, hsome]
      have hBsome : lookupKey id B = some c := by
        rw [hB id, hErw]
        simp only [List.map_cons]
        rw [lookupKey_cons, if_pos hcidid]
      rw [build_tree_go_cons_some _ _ _ _ hBsome]
      simp only
      rw [hErw]
      have hid' : ∀ p ∈ removeKey id items, p.2.id = p.1 :=
        fun p hp => hid p (List.mem_of_mem_filter hp)
      have hlive' : ∀ p ∈ removeKey id items,
          (p.2.deleted.getD false || p.2.dead.getD false) = false ∧
            p.2.text.isSome = true :=
        fun p hp => hlive p (List.mem_of_mem_filter hp)
      have hstackeq : ((c.kids).map (fun k => (k, depth + 1))) ++ rest = stack1 := by
        rw [hstack1, hckids]
      rw [hstackeq]
      congr 1
      refine ih hid' hlive' (removeKey id B) ?_
      intro k
      by_cases hk : k = id
      · subst hk
        rw [lookupKey_removeKey_self]
        have hnotid : k ∉ (build_tree_go (fun it => it.kids) (Comment.from_item decode)
            (removeKey k items) stack1).map (fun c => c.id) := by
          intro hmemid
          obtain ⟨c', hc', hcid'⟩ := List.mem_map.mp hmemid
          have := emitted_id_mem_keys decode (removeKey k items) _ hid' c' hc'
          rw [hcid'] at this
          exact keys_removeKey_self k items this
        rw [lookupKey_keyed_eq_none hnotid]
      · rw [lookupKey_removeKey_ne hk, hB k, hErw]
        simp only [List.map_cons]
        rw [lookupKey_cons]
        rw [if_neg (fun hh => hk (by rw [← hh, hcidid]))]

theorem prefilter_preserves_id {items : List (Nat × HnItem)} (attempted : List Nat)
    (hid : ∀ p ∈ items, p.2.id = p.1) :
    ∀ p ∈ prefilter_items items attempted, p.2.id = p.1 := by
  intro p hp
  rw [prefilter_items_eq] at hp
  obtain ⟨q, hq, rfl⟩ := List.mem_map.mp hp
  simpa [filterKids] using hid q hq

theorem prefilter_preserves_live {items : List (Nat × HnItem)} (attempted : List Nat)
    (hlive : ∀ p ∈ items, (p.2.deleted.getD false || p.2.dead.getD false) = false ∧
      p.2.text.isSome = true) :
    ∀ p ∈ prefilter_items items attempted,
      (p.2.deleted.getD false || p.2.dead.getD false) = false ∧
        p.2.text.isSome = true := by
  intro p hp
  rw [prefilter_items_eq] at hp
  obtain ⟨q, hq, rfl⟩ := List.mem_map.mp hp
  simpa [filterKids] using hlive q hq

/-- C2 (amended): for a fetched thread whose map entries are keyed by
their item's id, whose items are live (the Firebase fetch loop filters
deleted/dead before inserting) and which all carry text, the DFS
sequence of `build_comment_tree` equals the sequence obtained by
persisting each comment (`StorableComment` round-trip), reloading the
rows in any order, and replaying `order_cached_comments` with the same
root kids — identical comments, hence the same ids, depths and kids
lists in the same order.  The text condition is load-bearing: the fetch
loop inserts live items without checking `text`, and the fresh DFS
pushes an item's kids before `Comment::from_item` can return `None`, so
a live text-less item is traversed through but never persisted, and the
cached replay stops at it (see the counterexample below). -/
theorem fetch_cache_equivalence (decode : String → String)
    (items : List (Nat × HnItem)) (attempted root_kids : List Nat)
    (story_id now : Nat) (cached : List Comment)
    (hid : ∀ p ∈ items, p.2.id = p.1)
    (hlive : ∀ p ∈ items, (p.2.deleted.getD false || p.2.dead.getD false) = false ∧
      p.2.text.isSome = true)
    (hperm : cached.Perm ((build_comment_tree decode items attempted root_kids).map
      (fun c => (StorableComment.from_comment c story_id
        (find_parent_id (build_comment_tree decode items attempted root_kids) c.id)
        now).toComment))) :
    order_cached_comments cached root_kids =
      build_comment_tree decode items attempted root_kids := by
  have hrt : ∀ a ∈ build_comment_tree decode items attempted root_kids,
      (StorableComment.from_comment a story_id
        (find_parent_id (build_comment_tree decode items attempted root_kids) a.id)
        now).toComment = id a :=
    fun a _ => storable_round_trip a _ _ _
  rw [List.map_congr_left hrt, List.map_id] at hperm
  have hidP := prefilter_preserves_id attempted hid
  have hliveP := prefilter_preserves_live attempted hlive
  have hE : build_comment_tree decode items attempted root_kids =
      build_tree_go (fun it => it.kids) (Comment.from_item decode)
        (prefilter_items items attempted) (root_kids.map (fun id => (id, 0))) := rfl
  have hndE : ((build_tree_go (fun it => it.kids) (Comment.from_item decode)
      (prefilter_items items attempted) (root_kids.map (fun id => (id, 0)))).map
        (fun c => c.id)).Nodup :=
    emitted_ids_nodup decode _ _ hidP
  have hB : ∀ k, lookupKey k (cached.map (fun c => (c.id, c))) =
      lookupKey k ((build_tree_go (fun it => it.kids) (Comment.from_item decode)
        (prefilter_items items attempted) (root_kids.map (fun id => (id, 0)))).map
          (fun c => (c.id, c))) := by
    intro k
    exact lookupKey_keyed_perm (hE ▸ hperm) hndE k
  have := cached_replay decode (prefilter_items items attempted)
    (root_kids.map (fun id => (id, 0))) hidP hliveP
    (cached.map (fun c => (c.id, c))) hB
  rw [hE]
  exact this

def c2ex_items : List (Nat × HnItem) := [(1, mkItem 1 [2]), (2, mkItem 2 [])]

def c2ex_tree : List Comment := build_comment_tree (fun s => s) c2ex_items [1, 2] [1]

def c2ex_cached : List Comment :=
  c2ex_tree.map (fun c =>
    (StorableComment.from_comment c 7 (find_parent_id c2ex_tree c.id) 5).toComment)

/-- Witness for C2 at a concrete two-comment thread, with the cached list
being the persisted-and-reloaded comments. -/
theorem fetch_cache_equivalence_witness :
    order_cached_comments c2ex_cached [1] =
      build_comment_tree (fun s => s) c2ex_items [1, 2] [1] := by
  refine fetch_cache_equivalence (fun s => s) c2ex_items [1, 2] [1] 7 5 c2ex_cached
    ?_ ?_ ?_
  · decide
  · decide
  · exact List.Perm.refl _

/-- A live item (not deleted, not dead) that carries no text but has a
kid — exactly what `fetch_comments_firebase` may insert, since its
filter only checks `deleted`/`dead`. -/
def c2cex_item1 : HnItem :=
  { id := 1
    item_type := some "comment"
    by_ := some "u"
    time := some 1
    text := none
    url := none
    score := none
    title := none
    descendants := none
    kids := [2]
    parent := none
    deleted := none
    dead := none }

def c2cex_items : List (Nat × HnItem) := [(1, c2cex_item1), (2, mkItem 2 [])]

/-- The single comment the fresh DFS emits on `c2cex_items`: item 2,
reached through the text-less item 1, at depth 1. -/
def c2cex_out : Comment :=
  { id := 2
    text := "t"
    by_ := "u"
    time := 1
    depth := 1
    kids := [] }

/-- C2 counterexample: on a thread with a live but text-less item 1
whose kid 2 is a normal comment, the fresh DFS pushes item 1's kids
before `Comment::from_item` returns `None`, so it traverses through
item 1 and emits comment 2; persisting that output and replaying
`order_cached_comments` with the same root kids finds nothing stored
for id 1 and stops, yielding the empty sequence — the cached order
differs from the fresh one, refuting the unconditional equivalence. -/
theorem fetch_cache_equivalence_counterexample :
    order_cached_comments
        ((build_comment_tree (fun s => s) c2cex_items [1, 2] [1]).map
          (fun c => (StorableComment.from_comment c 7
            (find_parent_id (build_comment_tree (fun s => s) c2cex_items [1, 2] [1])
              c.id) 5).toComment)) [1] ≠
      build_comment_tree (fun s => s) c2cex_items [1, 2] [1] := by
  have hfe := build_tree_fuel_complete (fun item => item.kids)
    (Comment.from_item (fun s => s)) (prefilter_items c2cex_items [1, 2])
    ([1].map (fun id => (id, 0))) 10 (by decide)
  have hval : build_tree_fuel (fun item => item.kids)
      (Comment.from_item (fun s => s)) 10 (prefilter_items c2cex_items [1, 2])
      ([1].map (fun id => (id, 0))) = some [c2cex_out] := by decide
  have h1 : build_comment_tree (fun s => s) c2cex_items [1, 2] [1] = [c2cex_out] :=
    Option.some.inj (hfe.symm.trans hval)
  rw [h1]
  have hmap : [c2cex_out].map (fun c => (StorableComment.from_comment c 7
      (find_parent_id [c2cex_out] c.id) 5).toComment) = [c2cex_out] := by decide
  rw [hmap]
  have hfe2 := build_tree_fuel_complete (fun c => c.kids)
    (fun c _depth => some c) ([c2cex_out].map (fun c => (c.id, c)))
    ([1].map (fun id => (id, 0))) 10 (by decide)
  have hval2 : build_tree_fuel (fun c => c.kids) (fun c _depth => some c) 10
      ([c2cex_out].map (fun c => (c.id, c)))
      ([1].map (fun id => (id, 0))) = some [] := by decide
  have h2 : order_cached_comments [c2cex_out] [1] = ([] : List Comment) :=
    Option.some.inj (hfe2.symm.trans hval2)
  rw [h2]
  decide

/-- `CommentTree` from `src/comment_tree.rs`: the flat comment list and
the set of expanded ids (`HashSet<u64>` modelled as a membership list). -/
structure CommentTree where
  comments : List Comment
  expanded : List Nat
  deriving Repr, DecidableEq

/-- One iteration of the `visible_indices` loop from
`src/comment_tree.rs`, acting on the `parent_visible_at_depth` stack:
truncate to `depth + 1`; if the flag at `depth` is set, write the
"children visible" flag at `depth + 1` (push at the end, set in place
otherwise); an invisible comment leaves only the truncation. -/
def stepStack (expanded : List Nat) (stack : List Bool) (c : Comment) : List Bool :=
  let stack1 := stack.take (c.depth + 1)
  if stack1.getD c.depth false then
    let childVis := expanded.contains c.id
    if stack1.length ≤ c.depth + 1 then stack1 ++ [childVis]
    else stack1.set (c.depth + 1) childVis
  else stack1

/-- The `visible_indices` loop from `src/comment_tree.rs`: `idx` is the
running flat index, `stack` the `parent_visible_at_depth` vector. -/
def visAux (expanded : List Nat) : List Comment → Nat → List Bool → List Nat
  | [], _, _ => []
  | c :: rest, idx, stack =>
      let stack1 := stack.take (c.depth + 1)
      if stack1.getD c.depth false then
        let childVis := expanded.contains c.id
        let stack2 := if stack1.length ≤ c.depth + 1 then stack1 ++ [childVis]
          else stack1.set (c.depth + 1) childVis
        idx :: visAux expanded rest (idx + 1) stack2
      else visAux expanded rest (idx + 1) stack1

/-- `CommentTree::visible_indices` from `src/comment_tree.rs`. -/
def CommentTree.visible_indices (t : CommentTree) : List Nat :=
  visAux t.expanded t.comments 0 [true]

/-- Depth of the comment at flat index `i` (0 when out of range). -/
def depthAt (comments : List Comment) (i : Nat) : Nat :=
  ((comments.get? i).map (fun c => c.depth)).getD 0

/-- Id of the comment at flat index `i` (0 when out of range). -/
def idAt (comments : List Comment) (i : Nat) : Nat :=
  ((comments.get? i).map (fun c => c.id)).getD 0

/-- The nearest index before `m` holding a comment of depth strictly
below `j`: the ancestor slot at depth threshold `j` for a comment
appended at position `m`. -/
def ancBefore (comments : List Comment) (m j : Nat) : Option Nat :=
  (List.range m).reverse.find? (fun a => depthAt comments a < j)

/-- The claim's ancestor of comment `i`: the nearest preceding comment of
strictly smaller depth. -/
def ancIdx (comments : List Comment) (i : Nat) : Option Nat :=
  ancBefore comments i (depthAt comments i)

/-- Fuelled walk up the ancestor chain checking every ancestor is
expanded; fuel `≥ i` is always enough since ancestors have smaller
indices. -/
def chainGo (comments : List Comment) (expanded : List Nat) : Nat → Nat → Bool
  | 0, _ => true
  | fuel + 1, i =>
      match ancIdx comments i with
      | none => true
      | some a => expanded.contains (idAt comments a) && chainGo comments expanded fuel a

/-- The claim's visibility condition for comment `i`: every ancestor in
the nearest-preceding-smaller-depth chain is expanded. -/
def chainAllExpanded (comments : List Comment) (expanded : List Nat) (i : Nat) : Bool :=
  chainGo comments expanded i i

/-- Hypothetical visibility for a comment appended at position `m` with
depth `j`: its ancestor (if any) is expanded and itself chain-visible. -/
def nextVis (comments : List Comment) (expanded : List Nat) (m j : Nat) : Bool :=
  match ancBefore comments m j with
  | none => true
  | some a => expanded.contains (idAt comments a) && chainAllExpanded comments expanded a

/-- Depth well-formedness of a DFS-flattened list: the first comment sits
at depth 0 and every depth increases by at most one step to step. -/
def wfFrom (d : Nat) : List Comment → Bool
  | [] => true
  | c :: rest => decide (c.depth ≤ d + 1) && wfFrom c.depth rest

/-- A well-formed flat comment list: first comment at depth 0, each
subsequent depth at most one deeper than its predecessor. -/
def wfDepths : List Comment → Bool
  | [] => true
  | c :: rest => decide (c.depth = 0) && wfFrom c.depth rest

/-- Largest depth the next comment may have after `m` comments. -/
def maxNext (comments : List Comment) (m : Nat) : Nat :=
  if m = 0 then 0 else depthAt comments (m - 1) + 1

/-- The visibility stack after the first `m` comments. -/
def iterStack (comments : List Comment) (expanded : List Nat) (m : Nat) : List Bool :=
  (comments.take m).foldl (stepStack expanded) [true]

theorem range_succ_reverse (m : Nat) :
    (List.range (m + 1)).reverse = m :: (List.range m).reverse := by
  rw [List.range_succ, List.reverse_append]
  rfl

theorem ancBefore_lt {comments : List Comment} {m j a : Nat}
    (h : ancBefore comments m j = some a) : a < m := by
  have hmem := List.mem_of_find?_eq_some h
  rw [List.mem_reverse] at hmem
  exact List.mem_range.mp hmem

theorem ancBefore_zero (comments : List Comment) (j : Nat) :
    ancBefore comments 0 j = none := rfl

theorem ancBefore_succ_of_ge {comments : List Comment} {m j : Nat}
    (h : ¬ depthAt comments m < j) :
    ancBefore comments (m + 1) j = ancBefore comments m j := by
  unfold ancBefore
  rw [range_succ_reverse, List.find?_cons]
  simp [h]

theorem ancBefore_succ_of_lt {comments : List Comment} {m j : Nat}
    (h : depthAt comments m < j) :
    ancBefore comments (m + 1) j = some m := by
  unfold ancBefore
  rw [range_succ_reverse, List.find?_cons]
  simp [h]

theorem chainGo_fuel (comments : List Comment) (expanded : List Nat) :
    ∀ i, ∀ fuel, i ≤ fuel →
      chainGo comments expanded fuel i = chainGo comments expanded i i := by
  intro i
  induction i using Nat.strong_induction_on with
  | _ i ih =>
      intro fuel hfuel
      cases fuel with
      | zero =>
          have : i = 0 := Nat.le_zero.mp hfuel
          subst this
          rfl
      | succ g =>
          cases i with
          | zero =>
              show (match ancIdx comments 0 with
                | none => true
                | some a => expanded.contains (idAt comments a) &&
                    chainGo comments expanded g a) = true
              rw [show ancIdx comments 0 = none from rfl]
          | succ j =>
              show (match ancIdx comments (j + 1) with
                | none => true
                | some a => expanded.contains (idAt comments a) &&
                    chainGo comments expanded g a) =
                (match ancIdx comments (j + 1) with
                | none => true
                | some a => expanded.contains (idAt comments a) &&
                    chainGo comments expanded j a)
              cases ha : ancIdx comments (j + 1) with
              | none => rfl
              | some a =>
                  have halt : a < j + 1 := ancBefore_lt ha
                  have haj : a ≤ j := Nat.le_of_lt_succ halt
                  have hjg : j ≤ g := Nat.le_of_succ_le_succ hfuel
                  have h1 : chainGo comments expanded g a =
                      chainGo comments expanded a a :=
                    ih a halt g (Nat.le_trans haj hjg)
                  have h2 : chainGo comments expanded j a =
                      chainGo comments expanded a a :=
                    ih a halt j haj
                  show (expanded.contains (idAt comments a) &&
                      chainGo comments expanded g a) =
                    (expanded.contains (idAt comments a) &&
                      chainGo comments expanded j a)
                  rw [h1, h2]

theorem chainAllExpanded_eq (comments : List Comment) (expanded : List Nat) (i : Nat) :
    chainAllExpanded comments expanded i =
      match ancIdx comments i with
      | none => true
      | some a => expanded.contains (idAt comments a) &&
          chainAllExpanded comments expanded a := by
  unfold chainAllExpanded
  cases i with
  | zero =>
      show true = _
      rw [show ancIdx comments 0 = none from rfl]
  | succ j =>
      show (match ancIdx comments (j + 1) with
        | none => true
        | some a => expanded.contains (idAt comments a) &&
            chainGo comments expanded j a) = _
      cases ha : ancIdx comments (j + 1) with
      | none => rfl
      | some a =>
          have halt : a < j + 1 := ancBefore_lt ha
          show (expanded.contains (idAt comments a) &&
              chainGo comments expanded j a) =
            (expanded.contains (idAt comments a) &&
              chainAllExpanded comments expanded a)
          unfold chainAllExpanded
          rw [chainGo_fuel comments expanded a j (Nat.le_of_lt_succ halt)]

theorem chainAllExpanded_eq_nextVis (comments : List Comment) (expanded : List Nat)
    (i : Nat) :
    chainAllExpanded comments expanded i = nextVis comments expanded i (depthAt comments i) := by
  rw [chainAllExpanded_eq]
  rfl

theorem getD_take_of_lt (s : List Bool) : ∀ (j n : Nat), j < n →
    (s.take n).getD j false = s.getD j false := by
  induction s with
  | nil => intro j n _; simp
  | cons b rest ih =>
      intro j n hj
      cases n with
      | zero => cases hj
      | succ n' =>
          cases j with
          | zero => simp [List.take]
          | succ j' =>
              simp only [List.take, List.getD_cons_succ]
              exact ih j' n' (Nat.lt_of_succ_lt_succ hj)

theorem getD_true_lt_length {s : List Bool} {j : Nat}
    (h : s.getD j false = true) : j < s.length := by
  by_contra hge
  rw [List.getD_eq_getElem?_getD, List.getElem?_eq_none (Nat.le_of_not_lt hge)] at h
  cases h

theorem getD_append_right (s : List Bool) (b : Bool) :
    (s ++ [b]).getD s.length false = b := by
  rw [List.getD_eq_getElem?_getD, List.getElem?_append_right (Nat.le_refl _)]
  simp

theorem getD_append_left (s : List Bool) (b : Bool) {j : Nat} (hj : j < s.length) :
    (s ++ [b]).getD j false = s.getD j false := by
  rw [List.getD_eq_getElem?_getD, List.getElem?_append, if_pos hj,
    ← List.getD_eq_getElem?_getD]

theorem wfFrom_depth_le {d : Nat} {comments : List Comment}
    (h : wfFrom d comments = true) :
    ∀ m, m < comments.length →
      depthAt comments m ≤ (if m = 0 then d + 1 else depthAt comments (m - 1) + 1) := by
  induction comments generalizing d with
  | nil => intro m hm; cases hm
  | cons c rest ih =>
      simp only [wfFrom, Bool.and_eq_true, decide_eq_true_eq] at h
      obtain ⟨hc, hrest⟩ := h
      intro m hm
      cases m with
      | zero => simpa [depthAt] using hc
      | succ m' =>
          have := ih hrest m' (Nat.lt_of_succ_lt_succ hm)
          cases m' with
          | zero => simpa [depthAt] using this
          | succ m'' => simpa [depthAt] using this

theorem wf_depth_le {comments : List Comment} (h : wfDepths comments = true) :
    ∀ m, m < comments.length → depthAt comments m ≤ maxNext comments m := by
  intro m hm
  cases comments with
  | nil => cases hm
  | cons c rest =>
      simp only [wfDepths, Bool.and_eq_true, decide_eq_true_eq] at h
      obtain ⟨hc0, hrest⟩ := h
      cases m with
      | zero => simp [depthAt, maxNext, hc0]
      | succ m' =>
          have := wfFrom_depth_le hrest m' (Nat.lt_of_succ_lt_succ hm)
          unfold maxNext
          cases m' with
          | zero => simpa [depthAt, hc0] using this
          | succ m'' => simpa [depthAt] using this

theorem depthAt_get {comments : List Comment} {m : Nat} (hm : m < comments.length) :
    depthAt comments m = (comments.get ⟨m, hm⟩).depth := by
  unfold depthAt
  rw [List.get?_eq_get hm]
  rfl

theorem idAt_get {comments : List Comment} {m : Nat} (hm : m < comments.length) :
    idAt comments m = (comments.get ⟨m, hm⟩).id := by
  unfold idAt
  rw [List.get?_eq_get hm]
  rfl

theorem iterStack_zero (comments : List Comment) (expanded : List Nat) :
    iterStack comments expanded 0 = [true] := rfl

theorem iterStack_succ (comments : List Comment) (expanded : List Nat) (m : Nat)
    (hm : m < comments.length) :
    iterStack comments expanded (m + 1) =
      stepStack expanded (iterStack comments expanded m) (comments.get ⟨m, hm⟩) := by
  unfold iterStack
  rw [List.take_succ, List.getElem?_eq_getElem hm]
  simp only [Option.toList_some, List.foldl_append, List.foldl_cons, List.foldl_nil]
  rfl

theorem nextVis_frame {comments : List Comment} (expanded : List Nat) {m j : Nat}
    (h : j ≤ depthAt comments m) :
    nextVis comments expanded (m + 1) j = nextVis comments expanded m j := by
  unfold nextVis
  rw [ancBefore_succ_of_ge (Nat.not_lt.mpr h)]

theorem nextVis_succ_of_lt {comments : List Comment} (expanded : List Nat) {m j : Nat}
    (h : depthAt comments m < j) :
    nextVis comments expanded (m + 1) j =
      (expanded.contains (idAt comments m) && chainAllExpanded comments expanded m) := by
  unfold nextVis
  rw [ancBefore_succ_of_lt h]

theorem nextVis_zero (comments : List Comment) (expanded : List Nat) (j : Nat) :
    nextVis comments expanded 0 j = true := by
  unfold nextVis
  rw [ancBefore_zero]

theorem stack_inv (comments : List Comment) (expanded : List Nat)
    (hwf : wfDepths comments = true) :
    ∀ m, m ≤ comments.length →
      (∀ j, j < (iterStack comments expanded m).length →
        (iterStack comments expanded m).getD j false = nextVis comments expanded m j) ∧
      (∀ j, (iterStack comments expanded m).length ≤ j → j ≤ maxNext comments m →
        nextVis comments expanded m j = false) := by
  intro m
  induction m with
  | zero =>
      intro _
      constructor
      · intro j hj
        rw [iterStack_zero] at hj ⊢
        have hj0 : j = 0 := Nat.lt_one_iff.mp (by simpa using hj)
        subst hj0
        rw [nextVis_zero]
        rfl
      · intro j hj hmax
        rw [iterStack_zero] at hj
        simp only [List.length_cons, List.length_nil] at hj
        simp [maxNext] at hmax
        omega
  | succ m ih =>
      intro hm1
      have hm : m < comments.length := Nat.lt_of_succ_le hm1
      obtain ⟨inv1, inv2⟩ := ih (Nat.le_of_succ_le hm1)
      set s := iterStack comments expanded m with hs
      set c := comments.get ⟨m, hm⟩ with hc
      set d := c.depth with hd
      have hdm : depthAt comments m = d := (depthAt_get hm).trans hd.symm
      have hidm : idAt comments m = c.id := idAt_get hm
      have hstep : iterStack comments expanded (m + 1) = stepStack expanded s c :=
        iterStack_succ comments expanded m hm
      have hwfm : depthAt comments m ≤ maxNext comments m := wf_depth_le hwf m hm
      have hmax1 : maxNext comments (m + 1) = d + 1 := by
        simp only [maxNext, Nat.succ_ne_zero, if_false, Nat.add_sub_cancel]
        rw [hdm]
      have hflag_eq : (s.take (d + 1)).getD d false = s.getD d false :=
        getD_take_of_lt s d (d + 1) (Nat.lt_succ_self d)
      have hflagNV : s.getD d false = nextVis comments expanded m d := by
        by_cases hds : d < s.length
        · exact inv1 d hds
        · have hsd : s.length ≤ d := Nat.le_of_not_lt hds
          rw [inv2 d hsd (hdm ▸ hwfm)]
          rw [List.getD_eq_getElem?_getD, List.getElem?_eq_none hsd]
          rfl
      cases hflag : s.getD d false with
      | true =>
          have hdlt : d < s.length := getD_true_lt_length hflag
          have hs1 : (s.take (d + 1)).length = d + 1 := by
            rw [List.length_take]
            omega
          have hcond : (s.take (c.depth + 1)).getD c.depth false = true := by
            rw [← hd, hflag_eq, hflag]
          have hstepv : stepStack expanded s c =
              s.take (d + 1) ++ [expanded.contains c.id] := by
            simp only [stepStack]
            rw [if_pos hcond, ← hd, if_pos (le_of_eq hs1)]
          have hNVtrue : nextVis comments expanded m d = true := by
            rw [← hflagNV, hflag]
          constructor
          · intro j hj
            rw [hstep, hstepv] at hj ⊢
            have hlen : (s.take (d + 1) ++ [expanded.contains c.id]).length = d + 2 := by
              simp [hs1]
            rw [hlen] at hj
            by_cases hjd : j ≤ d
            · have hj1 : j < (s.take (d + 1)).length := by omega
              rw [getD_append_left _ _ hj1, getD_take_of_lt s j (d + 1) (by omega)]
              have hjs : j < s.length := by omega
              rw [inv1 j hjs, nextVis_frame expanded (by rw [hdm]; omega)]
            · have hjd1 : j = d + 1 := by omega
              subst hjd1
              have hgR : (s.take (d + 1) ++ [expanded.contains c.id]).getD (d + 1) false =
                  expanded.contains c.id := by
                have h0 := getD_append_right (s.take (d + 1)) (expanded.contains c.id)
                rw [hs1] at h0
                exact h0
              rw [hgR, nextVis_succ_of_lt expanded (by rw [hdm]; omega)]
              rw [chainAllExpanded_eq_nextVis, hdm, hNVtrue, hidm]
              simp
          · intro j hj hmax
            rw [hstep, hstepv] at hj
            have hlen : (s.take (d + 1) ++ [expanded.contains c.id]).length = d + 2 := by
              simp [hs1]
            rw [hlen] at hj
            rw [hmax1] at hmax
            omega
      | false =>
          have hNVd : nextVis comments expanded m d = false := by
            rw [← hflagNV, hflag]
          have hcond : ¬ ((s.take (c.depth + 1)).getD c.depth false = true) := by
            rw [← hd, hflag_eq, hflag]
            exact Bool.false_ne_true
          have hstepi : stepStack expanded s c = s.take (d + 1) := by
            simp only [stepStack]
            rw [if_neg hcond, ← hd]
          constructor
          · intro j hj
            rw [hstep, hstepi] at hj ⊢
            have hjlen : j < (s.take (d + 1)).length := hj
            rw [List.length_take] at hjlen
            have hjd : j ≤ d := by omega
            have hjs : j < s.length := by omega
            rw [getD_take_of_lt s j (d + 1) (by omega), inv1 j hjs,
              nextVis_frame expanded (by rw [hdm]; omega)]
          · intro j hj hmax
            rw [hstep, hstepi] at hj
            rw [List.length_take] at hj
            rw [hmax1] at hmax
            by_cases hjd : j ≤ d
            · rw [nextVis_frame expanded (by rw [hdm]; omega)]
              refine inv2 j (by omega) ?_
              rw [← hdm] at hjd
              exact Nat.le_trans hjd hwfm
            · have hjd1 : j = d + 1 := by omega
              subst hjd1
              rw [nextVis_succ_of_lt expanded (by rw [hdm]; omega)]
              rw [chainAllExpanded_eq_nextVis, hdm, hNVd]
              simp

theorem visAux_cons (expanded : List Nat) (c : Comment) (rest : List Comment)
    (idx : Nat) (s : List Bool) :
    visAux expanded (c :: rest) idx s =
      if (s.take (c.depth + 1)).getD c.depth false then
        idx :: visAux expanded rest (idx + 1) (stepStack expanded s c)
      else visAux expanded rest (idx + 1) (stepStack expanded s c) := by
  simp only [visAux, stepStack]
  by_cases hcond : (s.take (c.depth + 1)).getD c.depth false = true
  · rw [if_pos hcond, if_pos hcond, if_pos hcond]
  · rw [if_neg hcond, if_neg hcond, if_neg hcond]

theorem visAux_mem_iff (expanded : List Nat) :
    ∀ (rest : List Comment) (idx : Nat) (s : List Bool) (k : Nat),
      k ∈ visAux expanded rest idx s ↔
        ∃ o, o < rest.length ∧ k = idx + o ∧
          ((rest.take o).foldl (stepStack expanded) s).getD (depthAt rest o) false
            = true := by
  intro rest
  induction rest with
  | nil =>
      intro idx s k
      simp [visAux]
  | cons c rest' ih =>
      intro idx s k
      rw [visAux_cons]
      have hd0 : depthAt (c :: rest') 0 = c.depth := rfl
      have hflag0 : ((( c :: rest').take 0).foldl (stepStack expanded) s).getD
          (depthAt (c :: rest') 0) false = s.getD c.depth false := rfl
      by_cases hcond : (s.take (c.depth + 1)).getD c.depth false = true
      · rw [if_pos hcond]
        simp only [List.mem_cons]
        constructor
        · rintro (rfl | hk)
          · refine ⟨0, by first | omega | (simp only [List.length_cons] at *; omega), by first | omega | (simp only [List.length_cons] at *; omega), ?_⟩
            rw [hflag0, ← getD_take_of_lt s c.depth (c.depth + 1) (Nat.lt_succ_self _)]
            exact hcond
          · obtain ⟨o, ho, hko, hflag⟩ := (ih (idx + 1) (stepStack expanded s c) k).mp hk
            refine ⟨o + 1, by first | omega | (simp only [List.length_cons] at *; omega), by first | omega | (simp only [List.length_cons] at *; omega), ?_⟩
            simpa using hflag
        · rintro ⟨o, ho, hko, hflag⟩
          cases o with
          | zero => left; omega
          | succ o' =>
              right
              refine (ih (idx + 1) (stepStack expanded s c) k).mpr
                ⟨o', by first | omega | (simp only [List.length_cons] at *; omega), by first | omega | (simp only [List.length_cons] at *; omega), ?_⟩
              simpa using hflag
      · rw [if_neg hcond]
        rw [ih (idx + 1) (stepStack expanded s c) k]
        constructor
        · rintro ⟨o, ho, hko, hflag⟩
          refine ⟨o + 1, by first | omega | (simp only [List.length_cons] at *; omega), by first | omega | (simp only [List.length_cons] at *; omega), ?_⟩
          simpa using hflag
        · rintro ⟨o, ho, hko, hflag⟩
          cases o with
          | zero =>
              exfalso
              rw [hflag0, ← getD_take_of_lt s c.depth (c.depth + 1)
                (Nat.lt_succ_self _)] at hflag
              exact hcond hflag
          | succ o' =>
              refine ⟨o', by first | omega | (simp only [List.length_cons] at *; omega), by first | omega | (simp only [List.length_cons] at *; omega), ?_⟩
              simpa using hflag

/-- C3 (amended): for a depth-well-formed flat list (first comment at
depth 0, each depth at most one deeper than its predecessor — what the
DFS flattener produces), index `i` is in `visible_indices()` iff every
ancestor in its nearest-preceding-smaller-depth chain is expanded;
depth-0 comments have an empty chain, so they are always included. -/
theorem visible_indices_iff_chain (t : CommentTree)
    (hwf : wfDepths t.comments = true) (i : Nat) (hi : i < t.comments.length) :
    i ∈ t.visible_indices ↔ chainAllExpanded t.comments t.expanded i = true := by
  unfold CommentTree.visible_indices
  rw [visAux_mem_iff]
  obtain ⟨inv1, inv2⟩ := stack_inv t.comments t.expanded hwf i (Nat.le_of_lt hi)
  have hiter : (t.comments.take i).foldl (stepStack t.expanded) [true] =
      iterStack t.comments t.expanded i := rfl
  have hwfi : depthAt t.comments i ≤ maxNext t.comments i := wf_depth_le hwf i hi
  constructor
  · rintro ⟨o, ho, hko, hflag⟩
    have hoi : o = i := by omega
    subst hoi
    rw [hiter] at hflag
    rw [chainAllExpanded_eq_nextVis]
    by_cases hds : depthAt t.comments o < (iterStack t.comments t.expanded o).length
    · rw [← inv1 _ hds]
      exact hflag
    · exfalso
      have hlen := getD_true_lt_length hflag
      exact hds hlen
  · intro hchain
    refine ⟨i, hi, by omega, ?_⟩
    rw [hiter]
    rw [chainAllExpanded_eq_nextVis] at hchain
    by_cases hds : depthAt t.comments i < (iterStack t.comments t.expanded i).length
    · rw [inv1 _ hds]
      exact hchain
    · exfalso
      have := inv2 _ (Nat.le_of_not_lt hds) hwfi
      rw [this] at hchain
      cases hchain

def c3cex_comments : List Comment :=
  [{ id := 1, text := "a", by_ := "u", time := 0, depth := 0, kids := [2] },
   { id := 2, text := "b", by_ := "u", time := 0, depth := 5, kids := [] }]

/-- Counterexample to C3 as stated over arbitrary comment lists: with a
malformed depth jump (0 then 5), comment 1's nearest-preceding-smaller-
depth chain is just the expanded comment 0, yet `visible_indices` omits
index 1 because no stack entry exists at depth 5. -/
theorem visible_indices_iff_chain_counterexample :
    ¬ (∀ (t : CommentTree) (i : Nat), i < t.comments.length →
        (i ∈ t.visible_indices ↔ chainAllExpanded t.comments t.expanded i = true)) := by
  intro h
  have hmem := (h ⟨c3cex_comments, [1]⟩ 1 (by decide)).mpr (by decide)
  exact absurd hmem (by decide)

def c3ex_comments : List Comment :=
  [{ id := 1, text := "a", by_ := "u", time := 0, depth := 0, kids := [2] },
   { id := 2, text := "b", by_ := "u", time := 0, depth := 1, kids := [] }]

/-- Witness for the amended C3 on a concrete well-formed tree: with only
comment 1 expanded, index 1 (a child of comment 1) is visible. -/
theorem visible_indices_iff_chain_witness :
    (1 ∈ CommentTree.visible_indices ⟨c3ex_comments, [1]⟩ ↔
      chainAllExpanded c3ex_comments [1] 1 = true) ∧
      1 ∈ CommentTree.visible_indices ⟨c3ex_comments, [1]⟩ := by
  have h := visible_indices_iff_chain ⟨c3ex_comments, [1]⟩ (by decide) 1 (by decide)
  exact ⟨h, h.mpr (by decide)⟩

/-- `HashSet::insert` modelled on a membership list. -/
def insertSetL (id : Nat) (s : List Nat) : List Nat :=
  if s.contains id then s else id :: s

/-- `CommentTree::set` from `src/comment_tree.rs`: replace the list and
reset the expansion state. -/
def CommentTree.set (t : CommentTree) (comments : List Comment) : CommentTree :=
  { comments := comments, expanded := [] }

/-- `CommentTree::clear` from `src/comment_tree.rs`. -/
def CommentTree.clear (t : CommentTree) : CommentTree :=
  { comments := [], expanded := [] }

/-- `CommentTree::expand` from `src/comment_tree.rs`: insert into the
expanded set, returning whether the id was newly inserted. -/
def CommentTree.expand (t : CommentTree) (id : Nat) : CommentTree × Bool :=
  if t.expanded.contains id then (t, false)
  else ({ t with expanded := id :: t.expanded }, true)

/-- `CommentTree::collapse` from `src/comment_tree.rs`: remove from the
expanded set, returning whether the id was present. -/
def CommentTree.collapse (t : CommentTree) (id : Nat) : CommentTree × Bool :=
  if t.expanded.contains id then
    ({ t with expanded := t.expanded.filter (fun x => ¬ x = id) }, true)
  else (t, false)

/-- `CommentTree::expand_subtree` from `src/comment_tree.rs`: walk from
`start_index` over the strictly-deeper run and insert every comment that
has kids. -/
def CommentTree.expand_subtree (t : CommentTree) (start_index : Nat) : CommentTree :=
  match t.comments.get? start_index with
  | none => t
  | some start_comment =>
      let seg := (t.comments.drop (start_index + 1)).takeWhile
        (fun c => decide (start_comment.depth < c.depth))
      let e2 := (start_comment :: seg).foldl
        (fun e c => if c.kids.isEmpty then e else insertSetL c.id e) t.expanded
      { t with expanded := e2 }

/-- `CommentTree::collapse_subtree` from `src/comment_tree.rs`: walk the
same run and remove every comment from the expanded set. -/
def CommentTree.collapse_subtree (t : CommentTree) (start_index : Nat) : CommentTree :=
  match t.comments.get? start_index with
  | none => t
  | some start_comment =>
      let seg := (t.comments.drop (start_index + 1)).takeWhile
        (fun c => decide (start_comment.depth < c.depth))
      let e2 := (start_comment :: seg).foldl
        (fun e c => e.filter (fun x => ¬ x = c.id)) t.expanded
      { t with expanded := e2 }

/-- `CommentTree::expand_all` from `src/comment_tree.rs`. -/
def CommentTree.expand_all (t : CommentTree) : CommentTree :=
  let e2 := t.comments.foldl
    (fun e c => if c.kids.isEmpty then e else insertSetL c.id e) t.expanded
  { t with expanded := e2 }

/-- `CommentTree::collapse_all` from `src/comment_tree.rs`. -/
def CommentTree.collapse_all (t : CommentTree) : CommentTree :=
  { t with expanded := [] }

/-- The `CommentTree` mutating operations named by the invariant claim. -/
inductive TreeOp where
  | set (comments : List Comment)
  | clear
  | expand (id : Nat)
  | collapse (id : Nat)
  | expandSubtree (start_index : Nat)
  | collapseSubtree (start_index : Nat)
  | expandAll
  | collapseAll
  deriving Repr, DecidableEq

def applyOp (t : CommentTree) : TreeOp → CommentTree
  | .set cs => t.set cs
  | .clear => t.clear
  | .expand id => (t.expand id).1
  | .collapse id => (t.collapse id).1
  | .expandSubtree i => t.expand_subtree i
  | .collapseSubtree i => t.collapse_subtree i
  | .expandAll => t.expand_all
  | .collapseAll => t.collapse_all

def applyOps (t : CommentTree) : List TreeOp → CommentTree
  | [] => t
  | op :: rest => applyOps (applyOp t op) rest

/-- The expansion-set invariant: only ids of present comments. -/
def ExpandedInv (t : CommentTree) : Prop :=
  ∀ id ∈ t.expanded, id ∈ t.comments.map (fun c => c.id)

/-- An `expand` call is valid when its id names a present comment; every
other operation derives its ids from the list itself. -/
def opValid (t : CommentTree) : TreeOp → Prop
  | .expand id => id ∈ t.comments.map (fun c => c.id)
  | _ => True

def validOps (t : CommentTree) : List TreeOp → Prop
  | [] => True
  | op :: rest => opValid t op ∧ validOps (applyOp t op) rest

theorem foldl_guard_insert_inv (cs_all : List Comment) :
    ∀ (l : List Comment) (e : List Nat),
      (∀ id ∈ e, id ∈ cs_all.map (fun c => c.id)) →
      (∀ c ∈ l, c ∈ cs_all) →
      ∀ id ∈ l.foldl (fun e c => if c.kids.isEmpty then e else insertSetL c.id e) e,
        id ∈ cs_all.map (fun c => c.id) := by
  intro l
  induction l with
  | nil => intro e he _ id hid; exact he id hid
  | cons c rest ih =>
      intro e he hl id hid
      simp only [List.foldl_cons] at hid
      refine ih _ ?_ (fun c' hc' => hl c' (List.mem_cons_of_mem _ hc')) id hid
      intro id' hid'
      by_cases hk : c.kids.isEmpty
      · rw [if_pos hk] at hid'
        exact he id' hid'
      · rw [if_neg hk] at hid'
        unfold insertSetL at hid'
        by_cases hc : c.id ∈ e
        · rw [if_pos (by simpa using hc)] at hid'
          exact he id' hid'
        · rw [if_neg (by simpa using hc)] at hid'
          rcases List.mem_cons.mp hid' with rfl | hmem
          · exact List.mem_map.mpr ⟨c, hl c (List.mem_cons_self _ _), rfl⟩
          · exact he id' hmem

theorem foldl_erase_subset :
    ∀ (l : List Comment) (e : List Nat) (id : Nat),
      id ∈ l.foldl (fun e c => e.filter (fun x => ¬ x = c.id)) e → id ∈ e := by
  intro l
  induction l with
  | nil => intro e id h; exact h
  | cons c rest ih =>
      intro e id h
      simp only [List.foldl_cons] at h
      exact List.mem_of_mem_filter (ih _ id h)

theorem applyOp_inv {t : CommentTree} (hinv : ExpandedInv t) (op : TreeOp)
    (hop : opValid t op) : ExpandedInv (applyOp t op) := by
  cases op with
  | set cs =>
      intro id hid
      cases hid
  | clear =>
      intro id hid
      cases hid
  | expand id =>
      simp only [applyOp]
      unfold CommentTree.expand
      by_cases hc : id ∈ t.expanded
      · rw [if_pos (by simpa using hc)]
        exact hinv
      · rw [if_neg (by simpa using hc)]
        intro id' hid'
        replace hid' : id' ∈ id :: t.expanded := hid'
        rcases List.mem_cons.mp hid' with rfl | hmem
        · exact hop
        · exact hinv id' hmem
  | collapse id =>
      simp only [applyOp]
      unfold CommentTree.collapse
      by_cases hc : id ∈ t.expanded
      · rw [if_pos (by simpa using hc)]
        intro id' hid'
        replace hid' : id' ∈ t.expanded.filter (fun x => ¬ x = id) := hid'
        exact hinv id' (List.mem_of_mem_filter hid')
      · rw [if_neg (by simpa using hc)]
        exact hinv
  | expandSubtree i =>
      simp only [applyOp]
      unfold CommentTree.expand_subtree
      cases hg : t.comments.get? i with
      | none => exact hinv
      | some sc =>
          intro id' hid'
          have hsc : sc ∈ t.comments := List.get?_mem hg
          have hseg : ∀ c ∈ (t.comments.drop (i + 1)).takeWhile
              (fun c => decide (sc.depth < c.depth)), c ∈ t.comments := by
            intro c hc
            have h1 : c ∈ t.comments.drop (i + 1) :=
              ((t.comments.drop (i + 1)).takeWhile_sublist _).mem hc
            exact (List.drop_sublist _ _).mem h1
          replace hid' : id' ∈ (sc :: (t.comments.drop (i + 1)).takeWhile
              (fun c => decide (sc.depth < c.depth))).foldl
              (fun e c => if c.kids.isEmpty then e else insertSetL c.id e)
              t.expanded := hid'
          exact foldl_guard_insert_inv t.comments _ _ hinv
            (fun c hc => (List.mem_cons.mp hc).elim
              (fun h => by rw [h]; exact hsc) (hseg c)) id' hid'
  | collapseSubtree i =>
      simp only [applyOp]
      unfold CommentTree.collapse_subtree
      cases hg : t.comments.get? i with
      | none => exact hinv
      | some sc =>
          intro id' hid'
          replace hid' : id' ∈ (sc :: (t.comments.drop (i + 1)).takeWhile
              (fun c => decide (sc.depth < c.depth))).foldl
              (fun e c => e.filter (fun x => ¬ x = c.id)) t.expanded := hid'
          exact hinv id' (foldl_erase_subset _ _ id' hid')
  | expandAll =>
      intro id' hid'
      replace hid' : id' ∈ t.comments.foldl
          (fun e c => if c.kids.isEmpty then e else insertSetL c.id e)
          t.expanded := hid'
      exact foldl_guard_insert_inv t.comments _ _ hinv (fun c hc => hc) id' hid'
  | collapseAll =>
      intro id hid
      cases hid

/-- C4 (amended): the expansion-set invariant — only ids of comments in
the current list — is preserved by every sequence of `CommentTree`
operations in which each `expand(id)` call names a present comment (the
other operations draw ids from the list themselves); and `set()` always
resets the expansion set, so no id of a previous list survives it. -/
theorem expansion_inv_preserved (t : CommentTree) (ops : List TreeOp)
    (hinv : ExpandedInv t) (hvalid : validOps t ops) :
    ExpandedInv (applyOps t ops) ∧
      ∀ cs, (CommentTree.set t cs).expanded = [] := by
  refine ⟨?_, fun _ => rfl⟩
  induction ops generalizing t with
  | nil => exact hinv
  | cons op rest ih =>
      obtain ⟨hop, hrest⟩ := hvalid
      exact ih (applyOp t op) (applyOp_inv hinv op hop) hrest

/-- Counterexample to C4 as stated: `expand(7)` on a tree whose list has
no comment 7 leaves 7 in the expansion set. -/
theorem expansion_inv_counterexample :
    ¬ (∀ (t : CommentTree) (ops : List TreeOp),
        ExpandedInv t → ExpandedInv (applyOps t ops)) := by
  intro h
  have hinv0 : ExpandedInv ⟨[], []⟩ := by
    intro id hid
    cases hid
  have h7 := h ⟨[], []⟩ [.expand 7] hinv0 7 (by decide)
  rw [List.mem_map] at h7
  obtain ⟨a, ha, -⟩ := h7
  exact absurd (show a ∈ ([] : List Comment) from ha) (List.not_mem_nil a)

/-- Witness for the amended C4: a valid sequence touching every kind of
operation keeps the invariant on a concrete tree. -/
theorem expansion_inv_preserved_witness :
    ExpandedInv (applyOps ⟨c3ex_comments, []⟩
      [.expand 1, .expandSubtree 0, .collapse 2, .expandAll, .collapseAll]) ∧
      ∀ cs, (CommentTree.set ⟨c3ex_comments, []⟩ cs).expanded = [] := by
  refine expansion_inv_preserved _ _ ?_ ?_
  · intro id hid
    cases hid
  · exact ⟨show (1 : Nat) ∈ c3ex_comments.map (fun c => c.id) from by decide,
      trivial, trivial, trivial, trivial, trivial⟩

/-- `StorableStory` as consumed by `src/storage/queries.rs`: the story
row including the `read_at` / `favorited_at` columns that `save_story`,
`mark_story_read` and `toggle_story_favorite` read and write. -/
structure StorableStory where
  id : Nat
  title : String
  url : Option String
  score : Nat
  by_ : String
  time : Nat
  descendants : Nat
  kids : List Nat
  fetched_at : Nat
  read_at : Option Nat
  favorited_at : Option Nat
  deriving Repr, DecidableEq

/-- SQL `COALESCE(a, b)` on nullable integers. -/
def coalesce (a b : Option Nat) : Option Nat :=
  match a with
  | some t => some t
  | none => b

/-- `save_story` from `src/storage/queries.rs`: `INSERT … ON CONFLICT(id)
DO UPDATE` taking every column from the excluded row except `read_at` and
`favorited_at`, which keep the stored value via `COALESCE`; `RETURNING`
yields the merged row.  The table is a row list keyed by `id`. -/
def save_story (db : List StorableStory) (story : StorableStory) :
    List StorableStory × StorableStory :=
  match db.find? (fun r => r.id == story.id) with
  | none => (db ++ [story], story)
  | some old =>
      let merged := { story with
        read_at := coalesce old.read_at story.read_at,
        favorited_at := coalesce old.favorited_at story.favorited_at }
      (db.map (fun r => if r.id == story.id then merged else r), merged)

/-- `mark_story_read` from `src/storage/queries.rs`:
`UPDATE stories SET read_at = now WHERE id = ? AND read_at IS NULL`. -/
def mark_story_read (db : List StorableStory) (id now : Nat) : List StorableStory :=
  db.map (fun r =>
    if r.id == id && r.read_at.isNone then { r with read_at := some now } else r)

/-- `toggle_story_favorite` from `src/storage/queries.rs`: read the
current `favorited_at` (absent row reads as null); when set, null it out,
otherwise stamp the current time; return the new value. -/
def toggle_story_favorite (db : List StorableStory) (id now : Nat) :
    List StorableStory × Option Nat :=
  let existing := (db.find? (fun r => r.id == id)).bind (fun r => r.favorited_at)
  if existing.isSome then
    (db.map (fun r => if r.id == id then { r with favorited_at := none } else r), none)
  else
    (db.map (fun r => if r.id == id then { r with favorited_at := some now } else r),
      some now)

theorem find?_map_pres {A : Type} (u : A → A) (p : A → Bool)
    (hp : ∀ r, p (u r) = p r) :
    ∀ db : List A, (db.map u).find? p = (db.find? p).map u := by
  intro db
  induction db with
  | nil => rfl
  | cons a rest ih =>
      simp only [List.map_cons, List.find?_cons, hp a]
      cases p a <;> simp [ih]

theorem mark_story_read_length (db : List StorableStory) (id now : Nat) :
    (mark_story_read db id now).length = db.length := by
  simp [mark_story_read]

/-- C6: `read_at` is monotone.  `mark_story_read` stamps the current
time exactly on rows whose `read_at` is null (pointwise characterization),
a second call changes nothing, and a later `save_story` upsert keeps a
non-null `read_at` through `COALESCE`, both in the table and in the
returned merged row. -/
theorem read_at_monotone (db : List StorableStory) (id now1 now2 : Nat)
    (story : StorableStory) :
    mark_story_read (mark_story_read db id now1) id now2 = mark_story_read db id now1
  ∧ (∀ j, ∀ hj : j < db.length,
      (mark_story_read db id now1).get ⟨j, by rw [mark_story_read_length]; exact hj⟩ =
        (if (db.get ⟨j, hj⟩).id = id ∧ (db.get ⟨j, hj⟩).read_at = none
         then { db.get ⟨j, hj⟩ with read_at := some now1 }
         else db.get ⟨j, hj⟩))
  ∧ (∀ r t, db.find? (fun x => x.id == story.id) = some r → r.read_at = some t →
      (save_story db story).2.read_at = some t ∧
      (save_story db story).1.find? (fun x => x.id == story.id) =
        some { story with
               read_at := some t,
               favorited_at := coalesce r.favorited_at story.favorited_at }) := by
  refine ⟨?_, ?_, ?_⟩
  · unfold mark_story_read
    rw [List.map_map]
    apply List.map_congr_left
    intro r _
    by_cases hcond : (r.id == id && r.read_at.isNone) = true
    · simp only [Function.comp_apply, hcond, if_true]
      simp
    · simp only [Function.comp_apply, hcond, if_false]
      simp [hcond]
  · intro j hj
    unfold mark_story_read
    rw [List.get_map]
    by_cases h1 : (db.get ⟨j, hj⟩).id = id
    · by_cases h2 : (db.get ⟨j, hj⟩).read_at = none
      · simp [h1, h2]
      · simp [h1, h2]
    · simp [h1]
  · intro r t hfind hr
    unfold save_story
    rw [hfind]
    have hpres : ∀ x : StorableStory,
        (((if x.id == story.id
            then { story with
                   read_at := coalesce r.read_at story.read_at,
                   favorited_at := coalesce r.favorited_at story.favorited_at }
            else x) : StorableStory).id == story.id) = (x.id == story.id) := by
      intro x
      by_cases hx : (x.id == story.id) = true
      · rw [if_pos hx, hx]
        simp
      · rw [if_neg hx]
    constructor
    · simp [coalesce, hr]
    · rw [find?_map_pres _ _ hpres db, hfind]
      have hpr := List.find?_some hfind
      rw [Option.map_some', if_pos hpr, hr]
      rfl

def c6row : StorableStory :=
  { id := 1, title := "t", url := none, score := 0, by_ := "u", time := 0,
    descendants := 0, kids := [], fetched_at := 0, read_at := some 4,
    favorited_at := none }

def c6story : StorableStory :=
  { id := 1, title := "t2", url := none, score := 7, by_ := "u", time := 1,
    descendants := 0, kids := [], fetched_at := 9, read_at := none,
    favorited_at := none }

/-- Witness for C6: a refetch upsert of an already-read story keeps the
original `read_at` timestamp, and a second `mark_story_read` is a no-op. -/
theorem read_at_monotone_witness :
    (save_story [c6row] c6story).2.read_at = some 4 ∧
      mark_story_read (mark_story_read [c6row] 1 10) 1 20 =
        mark_story_read [c6row] 1 10 := by
  constructor
  · exact (((read_at_monotone [c6row] 1 10 20 c6story).2.2 c6row 4 (by decide)) rfl).1
  · exact (read_at_monotone [c6row] 1 10 20 c6story).1

theorem find?_mem_unique {A : Type} (key : A → Nat) :
    ∀ (db : List A) (id : Nat) (r x : A),
      (db.map key).Nodup → db.find? (fun y => key y == id) = some r →
      x ∈ db → key x = id → x = r := by
  intro db
  induction db with
  | nil =>
      intro id r x _ hf
      cases hf
  | cons a rest ih =>
      intro id r x hnd hf hx hkx
      simp only [List.map_cons, List.nodup_cons] at hnd
      obtain ⟨hna, hndr⟩ := hnd
      rw [List.find?_cons] at hf
      cases hpa : (key a == id) with
      | true =>
          rw [hpa] at hf
          injection hf with hra
          subst hra
          rcases List.mem_cons.mp hx with rfl | hxr
          · rfl
          · exfalso
            apply hna
            have hka : key a = id := by simpa using hpa
            rw [hka, ← hkx]
            exact List.mem_map.mpr ⟨x, hxr, rfl⟩
      | false =>
          rw [hpa] at hf
          rcases List.mem_cons.mp hx with rfl | hxr
          · exfalso
            rw [hkx] at hpa
            simp at hpa
          · exact ih id r x hndr hf hxr hkx

theorem toggle_branch_none {db : List StorableStory} {id : Nat} (now : Nat)
    {r : StorableStory} (hfind : db.find? (fun x => x.id == id) = some r)
    (hr : r.favorited_at = none) :
    toggle_story_favorite db id now =
      (db.map (fun x => if x.id == id then { x with favorited_at := some now } else x),
        some now) := by
  unfold toggle_story_favorite
  rw [hfind]
  simp [hr]

theorem toggle_branch_some {db : List StorableStory} {id : Nat} (now : Nat)
    {r : StorableStory} {t : Nat} (hfind : db.find? (fun x => x.id == id) = some r)
    (hr : r.favorited_at = some t) :
    toggle_story_favorite db id now =
      (db.map (fun x => if x.id == id then { x with favorited_at := none } else x),
        none) := by
  unfold toggle_story_favorite
  rw [hfind]
  simp [hr]

theorem story_update_id_pres (f : StorableStory → StorableStory)
    (hf : ∀ x, (f x).id = x.id) (id : Nat) :
    ∀ x : StorableStory,
      (((if x.id == id then f x else x) : StorableStory).id == id) = (x.id == id) := by
  intro x
  by_cases hx : (x.id == id) = true
  · rw [if_pos hx, hf, hx]
  · rw [if_neg hx]

/-- C7 (amended): for a stored story (its row is present, table ids
unique), a single toggle flips `favorited_at` between null and the
current time and returns the new value; after any single call the
story's `favorited_at` is null or the positive current time, never
anything else; toggling twice restores the favorited status and every
column except possibly the timestamp — exactly the whole table when the
story was unfavorited, while a favorited story gets the second toggle's
own timestamp instead of its original one. -/
theorem toggle_story_favorite_spec (db : List StorableStory) (id now now2 : Nat)
    (r : StorableStory)
    (hnd : (db.map (fun x => x.id)).Nodup)
    (hfind : db.find? (fun x => x.id == id) = some r)
    (hpos : 0 < now) :
    (r.favorited_at = none → (toggle_story_favorite db id now).2 = some now)
  ∧ (∀ t, r.favorited_at = some t → (toggle_story_favorite db id now).2 = none)
  ∧ (∀ x ∈ (toggle_story_favorite db id now).1, x.id = id →
      x.favorited_at = none ∨ (x.favorited_at = some now ∧ 0 < now))
  ∧ ((toggle_story_favorite (toggle_story_favorite db id now).1 id now2).1.map
        (fun x => { x with favorited_at := none }) =
      db.map (fun x => { x with favorited_at := none }))
  ∧ (∀ x ∈ (toggle_story_favorite (toggle_story_favorite db id now).1 id now2).1,
      x.id = id → x.favorited_at.isSome = r.favorited_at.isSome)
  ∧ (r.favorited_at = none →
      (toggle_story_favorite (toggle_story_favorite db id now).1 id now2).1 = db) := by
  have hpr : (r.id == id) = true := by
    have h0 := List.find?_some hfind
    exact h0
  cases hrf : r.favorited_at with
  | none =>
      have h1 := toggle_branch_none now hfind hrf
      have h1l : (toggle_story_favorite db id now).1 =
          db.map (fun x => if x.id == id then { x with favorited_at := some now }
            else x) := by rw [h1]
      have h1r : (toggle_story_favorite db id now).2 = some now := by rw [h1]
      have hfind2 : (toggle_story_favorite db id now).1.find?
          (fun x => x.id == id) = some { r with favorited_at := some now } := by
        rw [h1l, find?_map_pres _ _
          (story_update_id_pres (fun x => { x with favorited_at := some now })
            (fun x => rfl) id) db, hfind, Option.map_some', if_pos hpr]
      have h2 := toggle_branch_some now2 hfind2 rfl
      have h2l : (toggle_story_favorite (toggle_story_favorite db id now).1 id now2).1 =
          (toggle_story_favorite db id now).1.map
            (fun x => if x.id == id then { x with favorited_at := none } else x) := by
        rw [h2]
      refine ⟨fun _ => h1r, ?_, ?_, ?_, ?_, ?_⟩
      · intro t ht
        cases ht
      · intro x hx hxid
        rw [h1l] at hx
        obtain ⟨y, hy, rfl⟩ := List.mem_map.mp hx
        by_cases hyid : (y.id == id) = true
        · rw [if_pos hyid]
          exact Or.inr ⟨rfl, hpos⟩
        · rw [if_neg hyid] at hxid
          rw [hxid] at hyid
          simp at hyid
      · rw [h2l, h1l, List.map_map, List.map_map]
        apply List.map_congr_left
        intro x _
        by_cases hxid : (x.id == id) = true
        · simp [Function.comp, hxid]
        · simp [Function.comp, hxid]
      · intro x hx hxid
        rw [h2l, h1l, List.map_map] at hx
        obtain ⟨y, hy, rfl⟩ := List.mem_map.mp hx
        by_cases hyid : (y.id == id) = true
        · simp [Function.comp, hyid]
        · simp only [Function.comp_apply, if_neg hyid] at hxid
          rw [hxid] at hyid
          simp at hyid
      · intro _
        rw [h2l, h1l, List.map_map]
        conv_rhs => rw [← List.map_id db]
        apply List.map_congr_left
        intro x hx
        by_cases hxid : (x.id == id) = true
        · have hxr : x = r :=
            find?_mem_unique (fun x => x.id) db id r x hnd hfind hx (by simpa using hxid)
          subst hxr
          have hfx : ({ x with favorited_at := none } : StorableStory) = x := by
            rw [← hrf]
          simp [Function.comp, hxid, hfx]
        · simp [Function.comp, hxid]
  | some t0 =>
      have h1 := toggle_branch_some now hfind hrf
      have h1l : (toggle_story_favorite db id now).1 =
          db.map (fun x => if x.id == id then { x with favorited_at := none }
            else x) := by rw [h1]
      have h1r : (toggle_story_favorite db id now).2 = none := by rw [h1]
      have hfind2 : (toggle_story_favorite db id now).1.find?
          (fun x => x.id == id) = some { r with favorited_at := none } := by
        rw [h1l, find?_map_pres _ _
          (story_update_id_pres (fun x => { x with favorited_at := none })
            (fun x => rfl) id) db, hfind, Option.map_some', if_pos hpr]
      have h2 := toggle_branch_none now2 hfind2 rfl
      have h2l : (toggle_story_favorite (toggle_story_favorite db id now).1 id now2).1 =
          (toggle_story_favorite db id now).1.map
            (fun x => if x.id == id then { x with favorited_at := some now2 }
              else x) := by
        rw [h2]
      refine ⟨?_, fun _ _ => h1r, ?_, ?_, ?_, ?_⟩
      · intro h
        cases h
      · intro x hx hxid
        rw [h1l] at hx
        obtain ⟨y, hy, rfl⟩ := List.mem_map.mp hx
        by_cases hyid : (y.id == id) = true
        · rw [if_pos hyid]
          exact Or.inl rfl
        · rw [if_neg hyid] at hxid
          rw [hxid] at hyid
          simp at hyid
      · rw [h2l, h1l, List.map_map, List.map_map]
        apply List.map_congr_left
        intro x _
        by_cases hxid : (x.id == id) = true
        · simp [Function.comp, hxid]
        · simp [Function.comp, hxid]
      · intro x hx hxid
        rw [h2l, h1l, List.map_map] at hx
        obtain ⟨y, hy, rfl⟩ := List.mem_map.mp hx
        by_cases hyid : (y.id == id) = true
        · simp [Function.comp, hyid]
        · simp only [Function.comp_apply, if_neg hyid] at hxid
          rw [hxid] at hyid
          simp at hyid
      · intro h
        cases h

def c7row : StorableStory :=
  { id := 1, title := "t", url := none, score := 0, by_ := "u", time := 0,
    descendants := 0, kids := [], fetched_at := 0, read_at := none,
    favorited_at := some 5 }

def c7rowN : StorableStory :=
  { id := 1, title := "t", url := none, score := 0, by_ := "u", time := 0,
    descendants := 0, kids := [], fetched_at := 0, read_at := none,
    favorited_at := none }

/-- Counterexample to C7 as stated: a story favorited at time 5, toggled
at times 6 and 7, ends with `favorited_at = some 7`, not its prior
state. -/
theorem toggle_round_trip_counterexample :
    (toggle_story_favorite (toggle_story_favorite [c7row] 1 6).1 1 7).1 ≠ [c7row] := by
  decide

/-- Witness for the amended C7: an unfavorited story toggled at time 6
reports `some 6`, and a second toggle restores the table exactly. -/
theorem toggle_story_favorite_spec_witness :
    (toggle_story_favorite [c7rowN] 1 6).2 = some 6 ∧
      (toggle_story_favorite (toggle_story_favorite [c7rowN] 1 6).1 1 9).1 = [c7rowN] := by
  have h := toggle_story_favorite_spec [c7rowN] 1 6 9 c7rowN (by decide) (by decide)
    (by decide)
  exact ⟨h.1 rfl, h.2.2.2.2.2 rfl⟩

/-- One upsert of `save_comments` (`src/storage/queries.rs`):
`INSERT … ON CONFLICT(id) DO UPDATE` taking every column from the
excluded row except `favorited_at`, which keeps the stored value via
`COALESCE`. -/
def upsert_comment (db : List StorableComment) (c : StorableComment) :
    List StorableComment :=
  match db.find? (fun r => r.id == c.id) with
  | none => db ++ [c]
  | some old =>
      let merged := { c with favorited_at := coalesce old.favorited_at c.favorited_at }
      db.map (fun r => if r.id == c.id then merged else r)

/-- `save_comments` from `src/storage/queries.rs`: an empty incoming
list deletes every comment of the story; otherwise upsert each comment in
order, then delete rows of the story whose id is not among the incoming
ids. -/
def save_comments (db : List StorableComment) (story_id : Nat)
    (comments : List StorableComment) : List StorableComment :=
  if comments.isEmpty then db.filter (fun r => ¬ r.story_id = story_id)
  else
    let upserted := comments.foldl upsert_comment db
    upserted.filter (fun r => ¬ r.story_id = story_id ∨
      r.id ∈ comments.map (fun c => c.id))

/-- `get_comments` from `src/storage/queries.rs`:
`SELECT … FROM comments WHERE story_id = ?`. -/
def get_comments (db : List StorableComment) (story_id : Nat) :
    List StorableComment :=
  db.filter (fun r => r.story_id == story_id)

theorem coalesce_absorb (a b : Option Nat) : coalesce (coalesce a b) b = coalesce a b := by
  cases a <;> cases b <;> rfl

theorem comment_update_id_pres (c merged : StorableComment) (hm : merged.id = c.id) :
    ∀ x : StorableComment,
      (((if x.id == c.id then merged else x) : StorableComment).id == c.id) =
        (x.id == c.id) := by
  intro x
  by_cases hx : (x.id == c.id) = true
  · rw [if_pos hx, hm, hx]
    simp
  · rw [if_neg hx]

theorem findById_none_iff (db : List StorableComment) (k : Nat) :
    db.find? (fun r => r.id == k) = none ↔ k ∉ db.map (fun r => r.id) := by
  induction db with
  | nil => simp
  | cons a rest ih =>
      rw [List.find?_cons]
      cases hpa : (a.id == k) with
      | true =>
          simp only [hpa]
          have : a.id = k := by simpa using hpa
          simp [this]
      | false =>
          simp only [hpa]
          rw [ih]
          have : ¬ a.id = k := by simpa using hpa
          simp [List.map_cons, List.mem_cons]
          intro h
          exact fun hh => this hh.symm

theorem upsert_comment_find_self (db : List StorableComment) (c : StorableComment) :
    (upsert_comment db c).find? (fun r => r.id == c.id) =
      some (match db.find? (fun r => r.id == c.id) with
        | none => c
        | some old =>
            { c with favorited_at := coalesce old.favorited_at c.favorited_at }) := by
  unfold upsert_comment
  cases hf : db.find? (fun r => r.id == c.id) with
  | none =>
      rw [List.find?_append, hf]
      simp
  | some old =>
      rw [find?_map_pres _ _ (comment_update_id_pres c
        { c with favorited_at := coalesce old.favorited_at c.favorited_at } rfl) db,
        hf, Option.map_some', if_pos (List.find?_some hf)]

theorem upsert_comment_find_other (db : List StorableComment) (c : StorableComment)
    (k : Nat) (hk : ¬ k = c.id) :
    (upsert_comment db c).find? (fun r => r.id == k) = db.find? (fun r => r.id == k) := by
  unfold upsert_comment
  cases hf : db.find? (fun r => r.id == c.id) with
  | none =>
      rw [List.find?_append]
      cases hg : db.find? (fun r => r.id == k) with
      | none =>
          have hck : (c.id == k) = false := by
            simpa using (fun h => hk h.symm : ¬ c.id = k)
          simp [List.find?_cons, hck]
      | some v => simp [hg]
  | some old =>
      have hpres : ∀ x : StorableComment,
          ((((if x.id == c.id
              then { c with favorited_at := coalesce old.favorited_at c.favorited_at }
              else x) : StorableComment).id == k)) = (x.id == k) := by
        intro x
        by_cases hx : (x.id == c.id) = true
        · rw [if_pos hx]
          have hxid : x.id = c.id := by simpa using hx
          have hmid : ({ c with favorited_at := coalesce old.favorited_at c.favorited_at } : StorableComment).id = c.id := rfl
          rw [hmid, hxid]
        · rw [if_neg hx]
      rw [find?_map_pres _ _ hpres db]
      cases hg : db.find? (fun r => r.id == k) with
      | none => rfl
      | some v =>
          simp only [Option.map_some']
          rw [if_neg]
          intro hv
          have hk2 : v.id = k := by simpa using List.find?_some hg
          have hv2 : v.id = c.id := by simpa using hv
          exact hk (hk2 ▸ hv2)

theorem upsert_comment_ids (db : List StorableComment) (c : StorableComment) :
    (upsert_comment db c).map (fun r => r.id) =
      match db.find? (fun r => r.id == c.id) with
      | none => db.map (fun r => r.id) ++ [c.id]
      | some _ => db.map (fun r => r.id) := by
  unfold upsert_comment
  cases hf : db.find? (fun r => r.id == c.id) with
  | none => simp
  | some old =>
      simp only [List.map_map]
      apply List.map_congr_left
      intro x _
      by_cases hx : (x.id == c.id) = true
      · have hxid : x.id = c.id := by simpa using hx
        simp [Function.comp, hx, hxid]
      · simp [Function.comp, hx]

theorem upsert_comment_nodup {db : List StorableComment} (c : StorableComment)
    (hnd : (db.map (fun r => r.id)).Nodup) :
    ((upsert_comment db c).map (fun r => r.id)).Nodup := by
  have hids := upsert_comment_ids db c
  cases hf : db.find? (fun r => r.id == c.id) with
  | none =>
      rw [hf] at hids
      rw [hids]
      have hc : c.id ∉ db.map (fun r => r.id) := (findById_none_iff db c.id).mp hf
      simp [List.nodup_append, hnd, hc]
  | some old =>
      rw [hf] at hids
      rw [hids]
      exact hnd

theorem foldl_upsert_nodup (C : List StorableComment) :
    ∀ db : List StorableComment, (db.map (fun r => r.id)).Nodup →
      ((C.foldl upsert_comment db).map (fun r => r.id)).Nodup := by
  induction C with
  | nil => intro db hnd; exact hnd
  | cons c rest ih =>
      intro db hnd
      simp only [List.foldl_cons]
      exact ih _ (upsert_comment_nodup c hnd)

theorem foldl_upsert_frame (C : List StorableComment) :
    ∀ (db : List StorableComment) (k : Nat), k ∉ C.map (fun x => x.id) →
      (C.foldl upsert_comment db).find? (fun r => r.id == k) =
        db.find? (fun r => r.id == k) := by
  induction C with
  | nil => intro db k _; rfl
  | cons c0 rest ih =>
      intro db k hk
      simp only [List.map_cons, List.mem_cons] at hk
      push_neg at hk
      simp only [List.foldl_cons]
      rw [ih (upsert_comment db c0) k hk.2, upsert_comment_find_other db c0 k hk.1]

theorem foldl_upsert_find (C : List StorableComment) :
    ∀ (db : List StorableComment) (c : StorableComment), c ∈ C →
      (C.map (fun x => x.id)).Nodup →
      ∃ X, (C.foldl upsert_comment db).find? (fun r => r.id == c.id) =
        some { c with favorited_at := coalesce X c.favorited_at } := by
  induction C with
  | nil =>
      intro db c hc
      cases hc
  | cons c0 rest ih =>
      intro db c hc hnd
      simp only [List.map_cons, List.nodup_cons] at hnd
      obtain ⟨h0, hndr⟩ := hnd
      simp only [List.foldl_cons]
      rcases List.mem_cons.mp hc with rfl | hcr
      · rw [foldl_upsert_frame rest (upsert_comment db c) c.id h0]
        have hbase := upsert_comment_find_self db c
        cases hf : db.find? (fun r => r.id == c.id) with
        | none =>
            rw [hf] at hbase
            exact ⟨none, by rw [hbase]; rfl⟩
        | some old =>
            rw [hf] at hbase
            exact ⟨old.favorited_at, by rw [hbase]⟩
      · exact ih (upsert_comment db c0) c hcr hndr

theorem foldl_id {A B : Type} (f : A → B → A) :
    ∀ (l : List B) (x : A), (∀ b ∈ l, f x b = x) → l.foldl f x = x := by
  intro l
  induction l with
  | nil => intro x _; rfl
  | cons b rest ih =>
      intro x hb
      simp only [List.foldl_cons, hb b (List.mem_cons_self _ _)]
      exact ih x (fun b' hb' => hb b' (List.mem_cons_of_mem _ hb'))

theorem mem_find?_nodup {db : List StorableComment}
    (hnd : (db.map (fun r => r.id)).Nodup) {m : StorableComment} (hm : m ∈ db) :
    db.find? (fun r => r.id == m.id) = some m := by
  cases hf : db.find? (fun r => r.id == m.id) with
  | none =>
      exfalso
      have := (findById_none_iff db m.id).mp hf
      exact this (List.mem_map.mpr ⟨m, hm, rfl⟩)
  | some v =>
      have := find?_mem_unique (fun r => r.id) db m.id v m hnd hf hm rfl
      rw [this]

theorem ids_filter_nodup {db : List StorableComment} (p : StorableComment → Bool)
    (hnd : (db.map (fun r => r.id)).Nodup) :
    ((db.filter p).map (fun r => r.id)).Nodup := by
  have hsub : (db.filter p).Sublist db := List.filter_sublist db
  exact (hsub.map (fun r => r.id)).nodup hnd

/-- C5: with unique ids in the table and in the incoming list, and all
incoming comments belonging to story `S` (as the caller constructs them):
after `save_comments S C`, `get_comments S` holds exactly the ids of `C`
(orphans of a prior save are purged); an empty `C` deletes every comment
of `S`; and running `save_comments S C` twice leaves the store exactly as
running it once. -/
theorem save_comments_spec (db : List StorableComment) (S : Nat)
    (C : List StorableComment)
    (hnd : (db.map (fun r => r.id)).Nodup)
    (hcnd : (C.map (fun c => c.id)).Nodup)
    (hsid : ∀ c ∈ C, c.story_id = S) :
    (∀ k, k ∈ (get_comments (save_comments db S C) S).map (fun r => r.id) ↔
        k ∈ C.map (fun c => c.id))
  ∧ (C = [] → get_comments (save_comments db S C) S = [])
  ∧ save_comments (save_comments db S C) S C = save_comments db S C := by
  by_cases hC : C = []
  · subst hC
    have hsave : ∀ db' : List StorableComment,
        save_comments db' S [] = db'.filter (fun r => ¬ r.story_id = S) := fun _ => rfl
    have hget : get_comments (save_comments db S []) S = [] := by
      rw [hsave db]
      unfold get_comments
      rw [List.filter_filter]
      refine List.filter_eq_nil.mpr ?_
      intro a _
      by_cases h : a.story_id = S <;> simp [h]
    refine ⟨?_, fun _ => hget, ?_⟩
    · intro k
      simp [hget]
    · rw [hsave db, hsave (db.filter (fun r => ¬ r.story_id = S)), List.filter_filter]
      apply List.filter_congr
      intro a _
      exact Bool.and_self _
  · have hCne : C.isEmpty = false := by
      cases C with
      | nil => exact absurd rfl hC
      | cons a l => rfl
    have hsave : ∀ db' : List StorableComment,
        save_comments db' S C =
          (C.foldl upsert_comment db').filter (fun r => ¬ r.story_id = S ∨
            r.id ∈ C.map (fun c => c.id)) := by
      intro db'
      unfold save_comments
      rw [if_neg (by simp [hCne])]
    have hrow : ∀ c ∈ C, ∃ m : StorableComment,
        m ∈ save_comments db S C ∧ m.id = c.id ∧ m.story_id = S ∧
        (save_comments db S C).find? (fun r => r.id == c.id) = some m ∧
        ∃ X, m = { c with favorited_at := coalesce X c.favorited_at } := by
      intro c hcC
      obtain ⟨X, hfindU⟩ := foldl_upsert_find C db c hcC hcnd
      refine ⟨{ c with favorited_at := coalesce X c.favorited_at }, ?_, rfl, hsid c hcC,
        ?_, X, rfl⟩
      · rw [hsave db]
        refine List.mem_filter.mpr ⟨List.mem_of_find?_eq_some hfindU, ?_⟩
        refine decide_eq_true ?_
        exact Or.inr (List.mem_map.mpr ⟨c, hcC, rfl⟩)
      · have hnd1 : ((save_comments db S C).map (fun r => r.id)).Nodup := by
          rw [hsave db]
          exact ids_filter_nodup _ (foldl_upsert_nodup C db hnd)
        have hmdb1 : ({ c with favorited_at := coalesce X c.favorited_at } :
            StorableComment) ∈ save_comments db S C := by
          rw [hsave db]
          refine List.mem_filter.mpr ⟨List.mem_of_find?_eq_some hfindU, ?_⟩
          refine decide_eq_true ?_
          exact Or.inr (List.mem_map.mpr ⟨c, hcC, rfl⟩)
        exact mem_find?_nodup hnd1 hmdb1
    have hnd1 : ((save_comments db S C).map (fun r => r.id)).Nodup := by
      rw [hsave db]
      exact ids_filter_nodup _ (foldl_upsert_nodup C db hnd)
    refine ⟨?_, fun h => absurd h hC, ?_⟩
    · intro k
      constructor
      · intro hk
        obtain ⟨r, hr, rfl⟩ := List.mem_map.mp hk
        unfold get_comments at hr
        obtain ⟨hrdb1, hrS⟩ := List.mem_filter.mp hr
        rw [hsave db] at hrdb1
        obtain ⟨-, hkeep⟩ := List.mem_filter.mp hrdb1
        rcases of_decide_eq_true hkeep with hns | hid
        · exact absurd (by simpa using hrS) hns
        · exact hid
      · intro hk
        obtain ⟨c, hcC, rfl⟩ := List.mem_map.mp hk
        obtain ⟨m, hmdb1, hmid, hmS, -, -⟩ := hrow c hcC
        have hmget : m ∈ get_comments (save_comments db S C) S := by
          unfold get_comments
          refine List.mem_filter.mpr ⟨hmdb1, ?_⟩
          simpa using hmS
        exact List.mem_map.mpr ⟨m, hmget, hmid⟩
    · have hfoldid : C.foldl upsert_comment (save_comments db S C) =
          save_comments db S C := by
        apply foldl_id
        intro c hcC
        obtain ⟨m, hmdb1, hmid, hmS, hfind1, X, hmX⟩ := hrow c hcC
        unfold upsert_comment
        have hfind1' : (save_comments db S C).find? (fun r => r.id == c.id) = some m :=
          hfind1
        rw [hfind1']
        have hmerged : ({ c with favorited_at := coalesce m.favorited_at c.favorited_at } : StorableComment) = m := by
          rw [hmX]
          rw [show ({ c with favorited_at := coalesce X c.favorited_at } : StorableComment).favorited_at = coalesce X c.favorited_at from rfl]
          rw [coalesce_absorb]
        show (save_comments db S C).map (fun r => if r.id == c.id then { c with favorited_at := coalesce m.favorited_at c.favorited_at } else r) = save_comments db S C
        rw [hmerged]
        conv_rhs => rw [← List.map_id (save_comments db S C)]
        apply List.map_congr_left
        intro x hx
        by_cases hxid : (x.id == c.id) = true
        · rw [if_pos hxid]
          have hxm : x = m := by
            refine find?_mem_unique (fun r => r.id) (save_comments db S C) c.id m x
              hnd1 hfind1' hx ?_
            simpa using hxid
          rw [hxm]
          rfl
        · rw [if_neg hxid]
          rfl
      rw [hsave (save_comments db S C), hfoldid]
      apply List.filter_eq_self.mpr
      intro r hr
      rw [hsave db] at hr
      exact (List.mem_filter.mp hr).2

def c5a : StorableComment :=
  { id := 1, story_id := 7, parent_id := none, text := "a", by_ := "u", time := 0,
    depth := 0, kids := [], fetched_at := 0, favorited_at := none }

def c5b : StorableComment :=
  { id := 2, story_id := 7, parent_id := some 1, text := "b", by_ := "u", time := 0,
    depth := 1, kids := [], fetched_at := 0, favorited_at := none }

/-- Witness for C5: re-saving story 7 with only comment 1 purges the
orphan comment 2, and a second identical save leaves the store as is. -/
theorem save_comments_spec_witness :
    ((2 : Nat) ∈ (get_comments (save_comments [c5a, c5b] 7 [c5a]) 7).map (fun r => r.id) ↔
      (2 : Nat) ∈ [c5a].map (fun c => c.id)) ∧
    save_comments (save_comments [c5a, c5b] 7 [c5a]) 7 [c5a] =
      save_comments [c5a, c5b] 7 [c5a] := by
  have h := save_comments_spec [c5a, c5b] 7 [c5a] (by decide) (by decide) (by decide)
  exact ⟨h.1 2, h.2.2⟩

/-- `calculate_centering_offset` from `src/widgets/comment_list.rs`:
cumulative line starts, total line count, and the ideal offset that puts
the selected item's middle line at the viewport's middle, clamped to
`[0, total_lines − viewport_height]` (`-` is Rust `saturating_sub`). -/
def calculate_centering_offset (selected : Nat) (item_heights : List Nat)
    (viewport_height : Nat) : Nat :=
  let cumulative := item_heights.foldl (fun acc h => acc ++ [acc.getLastD 0 + h]) [0]
  let total_lines := cumulative.getLastD 0
  if total_lines ≤ viewport_height then 0
  else
    let selected_start := (cumulative.get? selected).getD 0
    let selected_height := (item_heights.get? selected).getD 0
    let selected_center := selected_start + selected_height / 2
    let half_viewport := viewport_height / 2
    let ideal_offset := selected_center - half_viewport
    let max_offset := total_lines - viewport_height
    min ideal_offset max_offset

/-- The widget's total rendered line count (last cumulative sum). -/
def total_lines (item_heights : List Nat) : Nat :=
  (item_heights.foldl (fun acc h => acc ++ [acc.getLastD 0 + h]) [0]).getLastD 0

/-- The selected item's centre line as the widget computes it. -/
def selected_center (selected : Nat) (item_heights : List Nat) : Nat :=
  ((item_heights.foldl (fun acc h => acc ++ [acc.getLastD 0 + h]) [0]).get?
      selected).getD 0 +
    ((item_heights.get? selected).getD 0) / 2

theorem calculate_centering_offset_eq (selected : Nat) (item_heights : List Nat)
    (viewport_height : Nat) :
    calculate_centering_offset selected item_heights viewport_height =
      if total_lines item_heights ≤ viewport_height then 0
      else min (selected_center selected item_heights - viewport_height / 2)
        (total_lines item_heights - viewport_height) := rfl

/-- C9: the centering offset is 0 when everything fits, otherwise lies in
`[0, total_lines − viewport_height]`, and among all offsets in that
clamp range it brings the selected item's centre line closest to the
viewport middle `viewport_height / 2`. -/
theorem centering_offset_spec (selected : Nat) (item_heights : List Nat)
    (viewport_height : Nat) :
    (total_lines item_heights ≤ viewport_height →
      calculate_centering_offset selected item_heights viewport_height = 0)
  ∧ (viewport_height < total_lines item_heights →
      calculate_centering_offset selected item_heights viewport_height ≤
        total_lines item_heights - viewport_height)
  ∧ (∀ o', o' ≤ total_lines item_heights - viewport_height →
      (((selected_center selected item_heights : Int) -
          (calculate_centering_offset selected item_heights viewport_height : Nat)) -
        ((viewport_height / 2 : Nat) : Int)).natAbs ≤
      (((selected_center selected item_heights : Int) - (o' : Nat)) -
        ((viewport_height / 2 : Nat) : Int)).natAbs) := by
  refine ⟨?_, ?_, ?_⟩
  · intro h
    rw [calculate_centering_offset_eq, if_pos h]
  · intro h
    rw [calculate_centering_offset_eq, if_neg (Nat.not_le.mpr h)]
    exact Nat.min_le_right _ _
  · intro o' ho'
    rw [calculate_centering_offset_eq]
    by_cases h : total_lines item_heights ≤ viewport_height
    · rw [if_pos h]
      have h0 : total_lines item_heights - viewport_height = 0 :=
        Nat.sub_eq_zero_of_le h
      rw [h0] at ho'
      have : o' = 0 := Nat.le_zero.mp ho'
      subst this
      simp
    · rw [if_neg h]
      omega

/-- Witness for C9 on the unit-test example: five items of height 5 in a
viewport of 10 give offset 7 = min(12 − 5, 15), within the clamp and at
least as close to the middle as the alternative offset 3. -/
theorem centering_offset_spec_witness :
    calculate_centering_offset 2 [5, 5, 5, 5, 5] 10 ≤
        total_lines [5, 5, 5, 5, 5] - 10 ∧
      (((selected_center 2 [5, 5, 5, 5, 5] : Int) -
          (calculate_centering_offset 2 [5, 5, 5, 5, 5] 10 : Nat)) -
        ((10 / 2 : Nat) : Int)).natAbs ≤
      (((selected_center 2 [5, 5, 5, 5, 5] : Int) - ((3 : Nat) : Int)) -
        ((10 / 2 : Nat) : Int)).natAbs := by
  exact ⟨(centering_offset_spec 2 [5, 5, 5, 5, 5] 10).2.1 (by decide),
    (centering_offset_spec 2 [5, 5, 5, 5, 5] 10).2.2 3 (by decide)⟩
